import Mathlib

/-!
Verification of the NGN core data layer (store / model subsystem) against its
natural-language specification.  The JavaScript sources are shallowly embedded:
each Lean definition below mirrors one function of the source, with machine
integers rendered as `Nat`/`Int` (explicit `% 2 ^ 32` where overflow matters),
JavaScript exceptions as `Except`, and mutation as explicit state passing.
-/

set_option linter.unusedVariables false

/-- Model of a JavaScript primitive value as stored in record fields and index
buckets.  `undef` is JavaScript `undefined` (the result of reading an absent
property), `nul` is JavaScript `null`.  Equality of `JsValue` models strict
equality `===` on these primitives. -/
inductive JsValue where
  | undef
  | nul
  | num (n : Int)
  | str (s : String)
deriving DecidableEq, Repr

/-- One step of the inner loop of `makeCRCTable` (src/unnamed/part_002, lines
20-26): `c = ((c & 1) ? (0xEDB88320 ^ (c >>> 1)) : (c >>> 1))`.  The value is
tracked as its unsigned 32-bit bit pattern, so `c & 1` is `c % 2` and
`c >>> 1` is `c / 2`. -/
def crcStep (c : Nat) : Nat :=
  if c % 2 = 1 then Nat.xor 0xEDB88320 (c / 2) else c / 2

/-- Entry `n` of the CRC table produced by `makeCRCTable`: eight iterations of
`crcStep` starting from `n`.  (The source loops `for (k = 0; k < 8; k++)`.) -/
def crcTableEntry (n : Nat) : Nat := crcStep^[8] n

/-- Loop of `NGN.DATA.util.checksum` (src/unnamed/part_002, lines 42-44):
`crc = (crc >>> 8) ^ crcTable[(crc ^ str.charCodeAt(i)) & 0xFF]`.
`crc >>> 8` is `crc / 256` and `& 0xFF` is `% 256` on the bit pattern. -/
def checksumAux : List Nat → Nat → Nat
  | [], crc => crc
  | ch :: rest, crc =>
      checksumAux rest (Nat.xor (crc / 256) (crcTableEntry (Nat.xor crc ch % 256)))

/-- Model of `NGN.DATA.util.checksum` (src/unnamed/part_002, lines 38-47).
`crc` starts at `0 ^ (-1)`, whose unsigned 32-bit pattern is `0xFFFFFFFF`, and
the result is `(crc ^ (-1)) >>> 0`, i.e. the complement interpreted as an
unsigned 32-bit integer.  Characters enter as their UTF-16 code units
(`charCodeAt`); for the basic multilingual plane these coincide with
`Char.toNat`. -/
def checksum (str : String) : Nat :=
  Nat.xor (checksumAux (str.data.map Char.toNat) 0xFFFFFFFF) 0xFFFFFFFF

theorem crcStep_lt (c : Nat) (h : c < 2 ^ 32) : crcStep c < 2 ^ 32 := by
  unfold crcStep
  split
  · exact Nat.xor_lt_two_pow (by norm_num) (by omega)
  · omega

theorem crcStep_iterate_lt (k n : Nat) (h : n < 2 ^ 32) : crcStep^[k] n < 2 ^ 32 := by
  induction k generalizing n with
  | zero => simpa using h
  | succ k ih =>
      rw [Function.iterate_succ_apply]
      exact ih _ (crcStep_lt _ h)

theorem crcTableEntry_lt (n : Nat) (h : n < 2 ^ 32) : crcTableEntry n < 2 ^ 32 :=
  crcStep_iterate_lt 8 n h

theorem checksumAux_lt (l : List Nat) (crc : Nat) (h : crc < 2 ^ 32) :
    checksumAux l crc < 2 ^ 32 := by
  induction l generalizing crc with
  | nil => simpa [checksumAux] using h
  | cons ch rest ih =>
      simp only [checksumAux]
      apply ih
      refine Nat.xor_lt_two_pow (by omega) ?_
      have hm : Nat.xor crc ch % 256 < 256 := Nat.mod_lt _ (by norm_num)
      exact crcTableEntry_lt _ (by omega)

/-- C9: for every input string, `NGN.DATA.util.checksum` returns an integer in
the range `[0, 2 ^ 32)` (it is a `Nat`, hence nonnegative), and two calls with
equal input strings return equal values (the function is deterministic). -/
theorem checksum_uint32_deterministic (s t : String) (h : s = t) :
    checksum s < 2 ^ 32 ∧ checksum s = checksum t := by
  constructor
  · exact Nat.xor_lt_two_pow (checksumAux_lt _ _ (by norm_num)) (by norm_num)
  · rw [h]

/-- Witness for C9 at the concrete string "abc". -/
theorem checksum_uint32_witness :
    checksum "abc" < 2 ^ 32 ∧ checksum "abc" = checksum "abc" :=
  checksum_uint32_deterministic "abc" "abc" rfl

/-- Model of a record held by an `NGN.DATA.Store`.  The store code only reads a
record through its `checksum` getter, its own properties (`record[field]`,
`record.hasOwnProperty(field)`), and strict-equality reference comparisons
(`indexOf`).  Accordingly a record is embedded as a field map together with a
`checksum` value and a `ref` token modelling JavaScript object identity: two
records are the same object (`===`) exactly when their `ref` tokens agree. -/
structure SRecord where
  ref : Nat
  fields : List (String × JsValue)
  checksum : Nat
deriving DecidableEq, Repr

/-- Property read `record[field]`: the stored value, or `undefined` for an
absent property. -/
def SRecord.get (r : SRecord) (f : String) : JsValue :=
  (r.fields.lookup f).getD (.undef)

/-- Property test `record.hasOwnProperty(field)`. -/
def SRecord.hasField (r : SRecord) (f : String) : Bool :=
  (r.fields.lookup f).isSome

/-- Model of `NGN.DATA.Store` state (src/unnamed/part_001).  Events carry no
state, so emission is not modelled; `_filters` is omitted because `find`
discards the result of its `applyFilters` call (line 555) and no claim touches
the filter chain.  `_index` maps each indexed field name to its bucket list; a
bucket is a heterogeneous JavaScript array whose first element is a field value
and whose remaining elements are record positions (`JsValue.num`). -/
structure Store where
  _data : List SRecord
  _index : List (String × List (List JsValue))
  _created : List SRecord
  _deleted : List SRecord
  allowDuplicates : Bool
  errorOnDuplicate : Bool
  _loading : Bool
deriving DecidableEq, Repr

/-- Model of `Store.isDuplicate` (src/unnamed/part_001, lines 231-238): the
record is not a duplicate if it is already in `_data` by reference
(`indexOf(record) >= 0`, i.e. some stored record has the same `ref` token);
otherwise it is a duplicate exactly when some stored record has an equal
checksum (`filter(...).length > 0`). -/
def Store.isDuplicate (s : Store) (record : SRecord) : Bool :=
  if s._data.any (fun rec => rec.ref = record.ref) then false
  else s._data.any (fun rec => rec.checksum = record.checksum)

/-- Access `values[i][0]` of a bucket: its head, or `undefined` when the bucket
array is empty. -/
def jsHead (b : List JsValue) : JsValue := b.headD (.undef)

/-- Inner loop of `Store.applyIndices` for one field (src/unnamed/part_001,
lines 901-909): scan the buckets; the first bucket whose leading element
strictly equals the record's value receives the position at its end, and if no
bucket matches a fresh bucket `[value, number]` is appended. -/
def applyIndicesBucket (v : JsValue) (num : Nat) : List (List JsValue) → List (List JsValue)
  | [] => [[v, .num (Int.ofNat num)]]
  | b :: bs =>
      if jsHead b = v then (b ++ [.num (Int.ofNat num)]) :: bs
      else b :: applyIndicesBucket v num bs

/-- Model of `Store.applyIndices` (src/unnamed/part_001, lines 887-912): every
indexed field present on the record gets the record's position applied to its
bucket list. -/
def Store.applyIndices (s : Store) (record : SRecord) (number : Nat) : Store :=
  { s with _index := s._index.map (fun fi =>
      if record.hasField fi.1 then (fi.1, applyIndicesBucket (record.get fi.1) number fi.2)
      else fi) }

/-- Outcome of `Store.add`: the method can throw a duplicate error, silently
return `undefined` (duplicate with `allowDuplicates = false` and
`errorOnDuplicate = false`), or append and return the record. -/
inductive AddOutcome where
  | threw (msg : String)
  | ignored
  | added (r : SRecord)
deriving DecidableEq, Repr

/-- Model of `Store.add` for a record argument that is already a data entity
(src/unnamed/part_001, lines 180-219; the `instanceof NGN.DATA.Entity` branch
takes `record = data`).  On a detected duplicate the `record.duplicate` event
is emitted (not modelled) and, when duplicates are disallowed, the call either
throws or silently no-ops.  Otherwise the record is applied to the indices at
position `_data.length`, pushed, and tracked in `_created` unless the store is
bulk-loading. -/
def Store.add (s : Store) (record : SRecord) : Store × AddOutcome :=
  let dupe := s.isDuplicate record
  if dupe ∧ ¬ s.allowDuplicates then
    if s.errorOnDuplicate then
      (s, .threw "Cannot add duplicate record (allowDuplicates = false).")
    else
      (s, .ignored)
  else
    let s₁ := s.applyIndices record s._data.length
    let s₂ := { s₁ with _data := s₁._data ++ [record] }
    let s₃ :=
      if ¬ s._loading ∧ ¬ s₂._created.any (fun rec => rec.ref = record.ref) then
        { s₂ with _created := s₂._created ++ [record] }
      else s₂
    (s₃, .added record)

/-- C2: `isDuplicate(r)` returns true if and only if `r` is not
reference-identical to any stored record and at least one stored record's
checksum equals `r`'s checksum. -/
theorem isDuplicate_checksum_iff (s : Store) (r : SRecord) :
    s.isDuplicate r = true ↔
      ((∀ rec ∈ s._data, rec.ref ≠ r.ref) ∧ ∃ rec ∈ s._data, rec.checksum = r.checksum) := by
  unfold Store.isDuplicate
  cases hany : s._data.any (fun rec => rec.ref = r.ref) with
  | true =>
      simp only [hany, if_true]
      simp only [List.any_eq_true, decide_eq_true_eq] at hany
      obtain ⟨rec, hrec, heq⟩ := hany
      simp only [Bool.false_eq_true, false_iff]
      rintro ⟨hall, -⟩
      exact hall rec hrec heq
  | false =>
      simp only [hany, Bool.false_eq_true, if_false]
      simp only [List.any_eq_false, decide_eq_true_eq] at hany
      simp only [List.any_eq_true, decide_eq_true_eq]
      exact ⟨fun hx => ⟨hany, hx⟩, fun h => h.2⟩

/-- C1: on a store with `allowDuplicates = false` and `errorOnDuplicate = true`
already containing a record whose checksum equals the candidate's, adding a
candidate that is not reference-identical to any stored record throws the
duplicate-record error and leaves the store (in particular its record count)
unchanged: the new record is not appended. -/
theorem add_duplicate_rejected (s : Store) (r : SRecord)
    (hallow : s.allowDuplicates = false) (herr : s.errorOnDuplicate = true)
    (href : ∀ rec ∈ s._data, rec.ref ≠ r.ref)
    (hsum : ∃ rec ∈ s._data, rec.checksum = r.checksum) :
    s.add r = (s, .threw "Cannot add duplicate record (allowDuplicates = false).") ∧
      (s.add r).1._data.length = s._data.length := by
  have hdup : s.isDuplicate r = true := (isDuplicate_checksum_iff s r).mpr ⟨href, hsum⟩
  constructor
  · unfold Store.add
    simp [hdup, hallow, herr]
  · unfold Store.add
    simp [hdup, hallow, herr]

/-- Witness for C1: a concrete one-record store rejects a reference-distinct
record with an equal checksum. -/
theorem add_duplicate_rejected_witness :
    (let s : Store :=
      { _data := [⟨0, [("f", .str "x")], 42⟩], _index := [], _created := [], _deleted := [],
        allowDuplicates := false, errorOnDuplicate := true, _loading := false }
     let r : SRecord := ⟨1, [("f", .str "x")], 42⟩
     s.add r = (s, .threw "Cannot add duplicate record (allowDuplicates = false).") ∧
       (s.add r).1._data.length = s._data.length) := by
  exact add_duplicate_rejected _ _ rfl rfl (by decide) (by decide)

/-- Test `dataArray.length > 0 && dataArray[0] === value` used by
`Store.getIndices` (src/unnamed/part_001, lines 994-996) to select the buckets
matching a queried value. -/
def bucketMatches (v : JsValue) (b : List JsValue) : Bool :=
  decide (0 < b.length) && decide (jsHead b = v)

/-- Model of `Store.getIndices` (src/unnamed/part_001, lines 989-1004).  When
the field is not indexed it returns `null` (`none` here).  Otherwise the
buckets whose leading element equals the value are collected; when exactly one
matches, `indexes[0].shift()` removes that bucket's leading element *in place*
(the filtered array holds references into `_index`), and the mutated bucket --
now missing its value element -- is returned.  In every other case an empty
array is returned and the index is left alone.  The returned pair is
(returned value, store after the call). -/
def Store.getIndices (s : Store) (field : String) (value : JsValue) :
    Option (List JsValue) × Store :=
  match s._index.lookup field with
  | none => (none, s)
  | some buckets =>
      match buckets.filter (bucketMatches value) with
      | [b] =>
          (some (b.drop 1),
           { s with _index := s._index.map (fun fi =>
               if fi.1 = field then
                 (fi.1, fi.2.map (fun bk => if bucketMatches value bk then bk.drop 1 else bk))
               else fi) })
      | _ => (some [], s)

/-- Result of `Store.find`: the JavaScript method returns an array, a single
record, or `null` depending on the query shape and outcome. -/
inductive FindRes where
  | arr (l : List SRecord)
  | one (r : SRecord)
  | nullR
deriving DecidableEq, Repr

/-- Model of `Store.find` with a numeric query (src/unnamed/part_001, lines
462-475): an empty store returns `[]`; an out-of-range index returns `null`;
otherwise the record at the zero-based position is returned. -/
def Store.findNumber (s : Store) (query : Int) : FindRes :=
  if s._data.isEmpty then .arr []
  else if query < 0 ∨ (s._data.length : Int) ≤ query then .nullR
  else
    match s._data.get? query.toNat with
    | some r => .one r
    | none => .nullR

/-- Model of `Store.find` with a function query (src/unnamed/part_001, lines
471-473): a predicate scan over `_data`.  The subsequent `applyFilters` call
(line 555) discards its result, so the scan result is returned as is. -/
def Store.findFunction (s : Store) (query : SRecord → Bool) : List SRecord :=
  if s._data.isEmpty then [] else s._data.filter query

/-- JavaScript array indexing `_data[v]` with an arbitrary value `v` as it
occurs in `match.map(index => me._data[index])` (src/unnamed/part_001, line
535): a number selects the element when in range; a string selects an element
only when it is the canonical decimal form of an index; anything else reads an
absent property, giving `undefined` (`none`). -/
def jsArrayIndex (data : List SRecord) (v : JsValue) : Option SRecord :=
  match v with
  | .num n => if n < 0 then none else data.get? n.toNat
  | .str s =>
      match s.toNat? with
      | some n => if toString n = s then data.get? n else none
      | none => none
  | _ => none

/-- Lookup `query[k]` on the query object. -/
def queryGet (query : List (String × JsValue)) (k : String) : JsValue :=
  (query.lookup k).getD (.undef)

/-- Final filter of the object branch of `Store.find` (src/unnamed/part_001,
lines 535-544): keep the records for which every queried field strictly equals
the query value. -/
def recordMatchesQuery (query : List (String × JsValue)) (r : SRecord) : Bool :=
  query.all (fun kv => kv.2 = r.get kv.1)

/-- Run the final filter over the concatenated result set.  A `none` entry
models `undefined` produced by `me._data[index]` for a stale position: the
filter callback then reads a property of `undefined` and throws a `TypeError`
(the query list is nonempty whenever a `none` can occur, since positions only
enter via a queried indexed field). -/
def finalFilter (query : List (String × JsValue)) :
    List (Option SRecord) → Except String (List SRecord)
  | [] => .ok []
  | some r :: rest => do
      let tl ← finalFilter query rest
      .ok (if recordMatchesQuery query r then r :: tl else tl)
  | none :: _ => .error "TypeError: cannot read properties of undefined"

/-- Model of `Store.find` with an object query (src/unnamed/part_001, lines
493-545).  For each query key, `getIndices` is consulted (mutating the index,
state threaded left to right); a `null` reply sends the key to the `noindex`
list, any array reply (even empty) contributes its positions to `match`.  The
deduplication step of the source (lines 514-517) discards its result and is
omitted.  Keys lacking an index trigger a linear scan restricted to records
whose position is not already in `match`.  Finally the scan results and the
records at the matched positions are concatenated and filtered by strict
equality on every query key. -/
def Store.findObject (s : Store) (query : List (String × JsValue)) :
    Except String (List SRecord) × Store :=
  if s._data.isEmpty then (.ok [], s)
  else
    let step := fun (acc : List JsValue × List String × Store) (kv : String × JsValue) =>
      match acc.2.2.getIndices kv.1 kv.2 with
      | (some lst, st') => (acc.1 ++ lst, acc.2.1, st')
      | (none, st') => (acc.1, acc.2.1 ++ [kv.1], st')
    let folded := query.foldl step ([], [], s)
    let mt := folded.1
    let ni := folded.2.1
    let st := folded.2.2
    let rs0 : List SRecord :=
      if 0 < ni.length then
        ((List.range s._data.length).zip s._data).filterMap (fun ir =>
          if mt.contains (.num (Int.ofNat ir.1)) then none
          else if ni.all (fun k => ir.2.get k = queryGet query k) then some ir.2
          else none)
      else []
    let mapped : List (Option SRecord) := mt.map (fun v => jsArrayIndex s._data v)
    (finalFilter query (rs0.map some ++ mapped), st)

/-- Strict equality `===` between a bucket (a JavaScript array object) and a
record position (a number): always false, since an object is never strictly
equal to a number.  This is the comparison `indexOf` performs inside
`Store.unapplyIndices`. -/
def jsStrictEqBucketNum (b : List JsValue) (n : Int) : Bool := false

/-- Model of `Store.unapplyIndices` (src/unnamed/part_001, lines 922-931):
`this._index[field].indexOf(num)` searches the *bucket list* for an element
strictly equal to the number `num`; every element is a bucket array, so the
search always fails and nothing is spliced out.  The structure of the source
is kept: find the index of the first match, erase it when found. -/
def Store.unapplyIndices (s : Store) (num : Int) : Store :=
  { s with _index := s._index.map (fun fi =>
      match fi.2.findIdx? (fun b => jsStrictEqBucketNum b num) with
      | some i => (fi.1, fi.2.eraseIdx i)
      | none => fi) }

/-- Model of `Store.remove` with a numeric argument (src/unnamed/part_001,
lines 352-394).  A negative index throws the not-found error; `splice` on an
index at or beyond the length removes nothing and the method returns `null`;
otherwise the record is spliced out, `unapplyIndices` runs, and the
`_created`/`_deleted` tracking is updated unless the store is loading. -/
def Store.remove (s : Store) (idx : Int) : Except String (Store × Option SRecord) :=
  if idx < 0 then
    .error "Record removal failed (record not found at index)."
  else
    match s._data.get? idx.toNat with
    | none => .ok (s, none)
    | some r =>
        let s₁ := { s with _data := s._data.eraseIdx idx.toNat }
        let s₂ := s₁.unapplyIndices idx
        let s₃ :=
          if ¬ s._loading then
            if s₂._created.any (fun rec => rec.ref = r.ref) then
              { s₂ with _created := s₂._created.eraseP (fun rec => rec.ref = r.ref) }
            else if ¬ s₂._deleted.any (fun rec => rec.ref = r.ref) then
              { s₂ with _deleted := s₂._deleted ++ [r] }
            else s₂
          else s₂
        .ok (s₃, some r)

/-- Model of `Store.clearIndices` (src/unnamed/part_001, lines 854-860): every
indexed field's bucket list is reset to `[]`. -/
def Store.clearIndices (s : Store) : Store :=
  { s with _index := s._index.map (fun fi => (fi.1, [])) }

/-- Loop of `Store.reindex` (src/unnamed/part_001, lines 1012-1018):
`this._data.forEach((record, index) => me.applyIndices(record, index))`,
unrolled with an explicit position counter. -/
def applyAll (s : Store) : List SRecord → Nat → Store
  | [], _ => s
  | r :: rs, n => applyAll (s.applyIndices r n) rs (n + 1)

/-- Model of `Store.reindex`: clear all indices, then apply every record at its
current position. -/
def Store.reindex (s : Store) : Store :=
  applyAll s.clearIndices s._data 0

theorem get?_eraseIdx_self {α : Type} (l : List α) (i : Nat) :
    (l.eraseIdx i).get? i = l.get? (i + 1) := by
  induction l generalizing i with
  | nil => simp [List.eraseIdx]
  | cons x xs ih =>
      cases i with
      | zero => simp [List.eraseIdx]
      | succ j => simpa [List.eraseIdx] using ih j

theorem findIdx?_jsStrictEq (l : List (List JsValue)) (n : Int) (start : Nat) :
    l.findIdx? (fun b => jsStrictEqBucketNum b n) start = none := by
  induction l generalizing start with
  | nil => rfl
  | cons b bs ih =>
      rw [List.findIdx?]
      simp only [jsStrictEqBucketNum, Bool.false_eq_true, if_false]
      exact ih _

theorem unapplyIndices_eq (s : Store) (n : Int) :
    s.unapplyIndices n = { s with _index := s._index } := by
  unfold Store.unapplyIndices
  have hfi : ∀ fi : String × List (List JsValue),
      (match fi.2.findIdx? (fun b => jsStrictEqBucketNum b n) with
       | some i => (fi.1, fi.2.eraseIdx i)
       | none => fi) = fi := by
    intro fi
    rw [findIdx?_jsStrictEq]
  simp only [hfi, List.map_id']

/-- C7 (amended part, proved): removing position `i` from a store holding at
least `i + 2` records succeeds, splices the record out of `_data` so that
`find(i)` afterwards returns the record previously at position `i + 1`, and --
contrary to the claim -- leaves every index bucket unchanged:
`unapplyIndices` searches the bucket list for an element strictly equal to the
removed position, which never holds of a bucket array, so no position is
removed, let alone shifted down. -/
theorem remove_shifts_records_keeps_index (s : Store) (i : Nat)
    (h : i + 2 ≤ s._data.length) :
    ∃ s' r rnext,
      s.remove (i : Int) = .ok (s', some r) ∧
      s._data.get? i = some r ∧ s._data.get? (i + 1) = some rnext ∧
      s'._data = s._data.eraseIdx i ∧ s'._index = s._index ∧
      s'.findNumber (i : Int) = .one rnext := by
  have hi : i < s._data.length := by omega
  have hi1 : i + 1 < s._data.length := by omega
  obtain ⟨r, hr⟩ : ∃ r, s._data.get? i = some r := ⟨_, List.get?_eq_get hi⟩
  obtain ⟨rn, hrn⟩ : ∃ rn, s._data.get? (i + 1) = some rn := ⟨_, List.get?_eq_get hi1⟩
  obtain ⟨s', hrem, hdata, hindex⟩ :
      ∃ s', s.remove (i : Int) = .ok (s', some r) ∧
        s'._data = s._data.eraseIdx i ∧ s'._index = s._index := by
    unfold Store.remove
    rw [if_neg (by omega : ¬ ((i : Int) < 0))]
    rw [show ((i : Int)).toNat = i from rfl, hr]
    refine ⟨_, rfl, ?_, ?_⟩
    · split <;> (try split) <;> (try split) <;> simp [unapplyIndices_eq]
    · split <;> (try split) <;> (try split) <;> simp [unapplyIndices_eq]
  refine ⟨s', r, rn, hrem, hr, hrn, hdata, hindex, ?_⟩
  unfold Store.findNumber
  rw [hdata]
  have hlen : (s._data.eraseIdx i).length = s._data.length - 1 :=
    List.length_eraseIdx_of_lt hi
  have hne : (s._data.eraseIdx i).isEmpty = false := by
    rw [Bool.eq_false_iff]
    intro he
    have := List.isEmpty_iff_length_eq_zero.mp he
    omega
  rw [hne]
  simp only [Bool.false_eq_true, if_false]
  have hbound : ¬ (((i : Int)) < 0 ∨ ((s._data.eraseIdx i).length : Int) ≤ (i : Int)) := by
    rw [hlen]
    omega
  rw [if_neg hbound]
  rw [show ((i : Int)).toNat = i from rfl, get?_eraseIdx_self, hrn]

/-- Formalisation of the index part of claim C7: after a removal at position
`i`, every position greater than `i` recorded in any index bucket would have
been shifted down by one.  Position entries are the non-leading elements of a
bucket; the leading element is the indexed value and is not a position. -/
def shiftBucket (i : Nat) (b : List JsValue) : List JsValue :=
  match b with
  | [] => []
  | v :: tl => v :: tl.map (fun x =>
      match x with
      | .num p => if (i : Int) < p then .num (p - 1) else .num p
      | other => other)

/-- Index with every recorded position greater than `i` shifted down by one. -/
def shiftIndex (i : Nat) (idx : List (String × List (List JsValue))) :
    List (String × List (List JsValue)) :=
  idx.map (fun fi => (fi.1, fi.2.map (shiftBucket i)))

/-- Claim C7 as stated: whenever `remove(i)` succeeds, `find(i)` returns the
record that was previously at position `i + 1`, and every position greater
than `i` recorded in any index bucket has been shifted down by one. -/
def C7Statement : Prop :=
  ∀ (s : Store) (i : Nat) (s' : Store) (r : SRecord),
    s.remove (i : Int) = .ok (s', some r) →
    (∀ rnext, s._data.get? (i + 1) = some rnext → s'.findNumber (i : Int) = .one rnext) ∧
    s'._index = shiftIndex i s._index

/-- Concrete three-record store with a consistent index on field "f", as
produced by three `add` calls on a store configured with `index: ['f']`. -/
def ceStore7 : Store :=
  { _data := [⟨0, [("f", .str "a")], 1⟩, ⟨1, [("f", .str "b")], 2⟩, ⟨2, [("f", .str "c")], 3⟩],
    _index := [("f", [[.str "a", .num 0], [.str "b", .num 1], [.str "c", .num 2]])],
    _created := [], _deleted := [], allowDuplicates := true, errorOnDuplicate := true,
    _loading := false }

/-- State of `ceStore7` after `remove(0)`: the record is spliced out of
`_data` and pushed to `_deleted`, while `_index` is untouched. -/
def ceStore7' : Store :=
  { _data := [⟨1, [("f", .str "b")], 2⟩, ⟨2, [("f", .str "c")], 3⟩],
    _index := [("f", [[.str "a", .num 0], [.str "b", .num 1], [.str "c", .num 2]])],
    _created := [], _deleted := [⟨0, [("f", .str "a")], 1⟩],
    allowDuplicates := true, errorOnDuplicate := true, _loading := false }

/-- C7 (counterexample): removing position 0 from `ceStore7` leaves the index
buckets exactly as they were -- position 2 still appears in a bucket although
only two records remain -- so no position was shifted down, refuting the claim
as stated. -/
theorem remove_index_not_shifted : ¬ C7Statement := by
  intro h
  have hrem : ceStore7.remove ((0 : Nat) : Int) = .ok (ceStore7', some ⟨0, [("f", .str "a")], 1⟩) := by
    rfl
  have h2 := (h ceStore7 0 ceStore7' ⟨0, [("f", .str "a")], 1⟩ hrem).2
  have h3 : ¬ (ceStore7'._index = shiftIndex 0 ceStore7._index) := by decide
  exact h3 h2

/-- Witness for the amended C7 theorem at the concrete store `ceStore7` and
position 0. -/
theorem remove_shifts_records_witness :
    0 + 2 ≤ ceStore7._data.length ∧
    ∃ s' r rnext,
      ceStore7.remove ((0 : Nat) : Int) = .ok (s', some r) ∧
      ceStore7._data.get? 0 = some r ∧ ceStore7._data.get? (0 + 1) = some rnext ∧
      s'._data = ceStore7._data.eraseIdx 0 ∧ s'._index = ceStore7._index ∧
      s'.findNumber ((0 : Nat) : Int) = .one rnext :=
  ⟨by decide, remove_shifts_records_keeps_index ceStore7 0 (by decide)⟩

theorem filter_eq_single {α : Type} (p : α → Bool) (l : List α) (b : α)
    (h : l.filter p = [b]) :
    ∃ pre post, l = pre ++ b :: post ∧ (∀ x ∈ pre, p x = false) ∧
      (∀ x ∈ post, p x = false) ∧ p b = true := by
  induction l with
  | nil => simp at h
  | cons x xs ih =>
      rw [List.filter_cons] at h
      by_cases hx : p x
      · rw [if_pos hx] at h
        obtain ⟨hxb, hxs⟩ := List.cons_eq_cons.mp h
        refine ⟨[], xs, by simp [hxb], by simp, ?_, hxb ▸ hx⟩
        intro y hy
        have hmem := List.filter_eq_nil_iff.mp hxs y hy
        exact Bool.eq_false_iff.mpr hmem
      · rw [if_neg hx] at h
        obtain ⟨pre, post, hl, hpre, hpost, hpb⟩ := ih h
        refine ⟨x :: pre, post, by simp [hl], ?_, hpost, hpb⟩
        intro y hy
        rcases List.mem_cons.mp hy with h1 | h2
        · subst h1
          exact Bool.eq_false_iff.mpr hx
        · exact hpre y h2

theorem lookup_map_update {β : Type} (g : β → β) (f : String) (l : List (String × β)) :
    (l.map (fun fi => if fi.1 = f then (fi.1, g fi.2) else fi)).lookup f =
      (l.lookup f).map g := by
  induction l with
  | nil => rfl
  | cons kv rest ih =>
      obtain ⟨k, v⟩ := kv
      by_cases hk : k = f
      · subst hk
        rw [List.map_cons, if_pos (rfl : (k, v).1 = k)]
        simp [List.lookup_cons]
      · rw [List.map_cons, if_neg (show ¬ ((k, v).1 = f) from hk)]
        rw [List.lookup_cons, List.lookup_cons]
        have hbeq : (f == k) = false := beq_eq_false_iff_ne.mpr (fun hfk => hk hfk.symm)
        simp only [hbeq, ih]

/-- C10 (amended part, proved): when exactly one bucket of the field's index
matches the queried value, `getIndices` removes the bucket's leading value
element in place and returns the remaining position list; an immediately
repeated call then returns an empty array provided the mutated bucket does not
itself match the value again with at least one further element (which can only
happen when the value equals the bucket's first recorded position). -/
theorem getIndices_mutating_lookup (s : Store) (f : String) (v : JsValue)
    (buckets : List (List JsValue)) (b : List JsValue)
    (hf : s._index.lookup f = some buckets)
    (hone : buckets.filter (bucketMatches v) = [b]) :
    (s.getIndices f v).1 = some (b.drop 1) ∧
    ((s.getIndices f v).2)._index.lookup f =
      some (buckets.map (fun bk => if bucketMatches v bk then bk.drop 1 else bk)) ∧
    (∃ pre post, buckets = pre ++ b :: post ∧
      buckets.map (fun bk => if bucketMatches v bk then bk.drop 1 else bk) =
        pre ++ b.drop 1 :: post) ∧
    ((bucketMatches v (b.drop 1) = false ∨ (b.drop 1).drop 1 = []) →
      (((s.getIndices f v).2).getIndices f v).1 = some []) := by
  obtain ⟨pre, post, hdecomp, hpre, hpost, hpb⟩ := filter_eq_single _ _ _ hone
  have hmapeq :
      buckets.map (fun bk => if bucketMatches v bk then bk.drop 1 else bk) =
        pre ++ b.drop 1 :: post := by
    subst hdecomp
    rw [List.map_append, List.map_cons]
    congr 1
    · rw [show pre.map (fun bk => if bucketMatches v bk then bk.drop 1 else bk) = pre.map id from
        List.map_congr_left fun x hx => by simp [hpre x hx], List.map_id]
    · congr 1
      · simp [hpb]
      · rw [show post.map (fun bk => if bucketMatches v bk then bk.drop 1 else bk) = post.map id from
          List.map_congr_left fun x hx => by simp [hpost x hx], List.map_id]
  have h1 : (s.getIndices f v).1 = some (b.drop 1) := by
    unfold Store.getIndices
    simp only [hf, hone]
  have h2 : ((s.getIndices f v).2)._index.lookup f =
      some (buckets.map (fun bk => if bucketMatches v bk then bk.drop 1 else bk)) := by
    unfold Store.getIndices
    simp only [hf, hone]
    rw [lookup_map_update (fun bl => bl.map (fun bk => if bucketMatches v bk then bk.drop 1 else bk)) f s._index]
    rw [hf]
    rfl
  refine ⟨h1, h2, ⟨pre, post, hdecomp, hmapeq⟩, ?_⟩
  intro hcase
  have hlook2 : ((s.getIndices f v).2)._index.lookup f = some (pre ++ b.drop 1 :: post) := by
    rw [h2, hmapeq]
  generalize (s.getIndices f v).2 = t at hlook2
  unfold Store.getIndices
  simp only [hlook2]
  have hfilpre : pre.filter (bucketMatches v) = [] :=
    List.filter_eq_nil_iff.mpr fun x hx => by simp [hpre x hx]
  have hfilpost : post.filter (bucketMatches v) = [] :=
    List.filter_eq_nil_iff.mpr fun x hx => by simp [hpost x hx]
  rcases hcase with hfalse | hdrop
  · rw [List.filter_append, List.filter_cons, if_neg (by rw [hfalse]; simp), hfilpre, hfilpost]
    rfl
  · by_cases hb1 : bucketMatches v (b.drop 1) = true
    · rw [List.filter_append, List.filter_cons, if_pos hb1, hfilpre, hfilpost]
      show some ((b.drop 1).drop 1) = some []
      rw [hdrop]
    · rw [List.filter_append, List.filter_cons, if_neg hb1, hfilpre, hfilpost]
      rfl

/-- Claim C10 as stated: whenever exactly one bucket of the field's index
matches the queried value, `getIndices` removes the leading element of that
bucket in place and returns the remaining position list, and an immediately
repeated call returns an empty array. -/
def C10Statement : Prop :=
  ∀ (s : Store) (f : String) (v : JsValue)
    (buckets : List (List JsValue)) (b : List JsValue),
    s._index.lookup f = some buckets →
    buckets.filter (bucketMatches v) = [b] →
    (s.getIndices f v).1 = some (b.drop 1) ∧
    (((s.getIndices f v).2).getIndices f v).1 = some []

/-- Concrete six-record store whose index on "f" was built by six `add`
calls; records 3 and 5 both carry the numeric value 3, so the bucket for the
value 3 is `[3, 3, 5]` -- its first recorded position equals the value. -/
def ceStore10 : Store :=
  { _data := [⟨0, [("f", .num 10)], 110⟩, ⟨1, [("f", .num 11)], 111⟩,
              ⟨2, [("f", .num 12)], 112⟩, ⟨3, [("f", .num 3)], 113⟩,
              ⟨4, [("f", .num 13)], 114⟩, ⟨5, [("f", .num 3)], 115⟩],
    _index := [("f", [[.num 10, .num 0], [.num 11, .num 1], [.num 12, .num 2],
                      [.num 3, .num 3, .num 5], [.num 13, .num 4]])],
    _created := [], _deleted := [], allowDuplicates := true, errorOnDuplicate := true,
    _loading := false }

/-- C10 (counterexample): on `ceStore10`, querying the value 3 matches exactly
one bucket, `[3, 3, 5]`; the first call shifts it to `[3, 5]` and returns
`[3, 5]`, but the second call again matches the mutated bucket (its new
leading element 3 equals the value) and returns `[5]`, not an empty array. -/
theorem getIndices_second_call_not_empty : ¬ C10Statement := by
  intro h
  have h2 := (h ceStore10 "f" (.num 3)
      [[.num 10, .num 0], [.num 11, .num 1], [.num 12, .num 2],
       [.num 3, .num 3, .num 5], [.num 13, .num 4]]
      [.num 3, .num 3, .num 5] rfl (by decide)).2
  have h3 : (((ceStore10.getIndices "f" (.num 3)).2).getIndices "f" (.num 3)).1 =
      some [.num 5] := by decide
  rw [h3] at h2
  exact absurd h2 (by decide)

/-- Concrete two-record store with a consistent string-valued index on "f". -/
def ceStore10W : Store :=
  { _data := [⟨0, [("f", .str "x")], 120⟩, ⟨1, [("f", .str "x")], 121⟩],
    _index := [("f", [[.str "x", .num 0, .num 1]])],
    _created := [], _deleted := [], allowDuplicates := true, errorOnDuplicate := true,
    _loading := false }

/-- Witness for the amended C10 theorem at `ceStore10W` and value "x". -/
theorem getIndices_mutating_witness :
    (ceStore10W.getIndices "f" (.str "x")).1 = some ([JsValue.str "x", .num 0, .num 1].drop 1) ∧
    ((ceStore10W.getIndices "f" (.str "x")).2)._index.lookup "f" =
      some ([[JsValue.str "x", .num 0, .num 1]].map
        (fun bk => if bucketMatches (.str "x") bk then bk.drop 1 else bk)) ∧
    (∃ pre post, [[JsValue.str "x", .num 0, .num 1]] = pre ++ [JsValue.str "x", .num 0, .num 1] :: post ∧
      [[JsValue.str "x", .num 0, .num 1]].map
        (fun bk => if bucketMatches (.str "x") bk then bk.drop 1 else bk) =
        pre ++ [JsValue.str "x", .num 0, .num 1].drop 1 :: post) ∧
    ((bucketMatches (.str "x") ([JsValue.str "x", .num 0, .num 1].drop 1) = false ∨
        ([JsValue.str "x", .num 0, .num 1].drop 1).drop 1 = []) →
      (((ceStore10W.getIndices "f" (.str "x")).2).getIndices "f" (.str "x")).1 = some []) :=
  getIndices_mutating_lookup ceStore10W "f" (.str "x")
    [[JsValue.str "x", .num 0, .num 1]] [JsValue.str "x", .num 0, .num 1] rfl (by decide)

/-- Distinct values of field `f` among the records possessing it, in order of
first occurrence.  This is the order in which `applyIndices` creates buckets. -/
def firstVals (f : String) : List SRecord → List JsValue
  | [] => []
  | r :: rs =>
      if r.hasField f then
        r.get f :: (firstVals f rs).filter (fun w => decide (w ≠ r.get f))
      else firstVals f rs

/-- Positions (starting at `i0`) of the records possessing field `f` with
value `v`. -/
def posns (f : String) (v : JsValue) : List SRecord → Nat → List Nat
  | [], _ => []
  | r :: rs, i =>
      (if r.hasField f ∧ r.get f = v then [i] else []) ++ posns f v rs (i + 1)

/-- The bucket list `applyIndices` builds for field `f` from a record sequence
whose first record sits at position `i0`: one bucket per distinct value, led by
the value and followed by the positions holding it in ascending order. -/
def specBuckets (f : String) (data : List SRecord) (i0 : Nat) : List (List JsValue) :=
  (firstVals f data).map
    (fun v => v :: (posns f v data i0).map (fun i => .num (Int.ofNat i)))

theorem posns_snoc (f : String) (v : JsValue) (seen : List SRecord) (r : SRecord)
    (i0 : Nat) :
    posns f v (seen ++ [r]) i0 =
      posns f v seen i0 ++
        (if r.hasField f ∧ r.get f = v then [i0 + seen.length] else []) := by
  induction seen generalizing i0 with
  | nil => simp [posns]
  | cons s0 rest ih =>
      simp only [List.cons_append, posns, List.length_cons, List.append_eq]
      rw [ih, List.append_assoc]
      rw [show i0 + 1 + rest.length = i0 + (rest.length + 1) from by omega]

theorem mem_firstVals (f : String) (v : JsValue) (data : List SRecord) :
    v ∈ firstVals f data ↔ ∃ r ∈ data, r.hasField f = true ∧ r.get f = v := by
  induction data with
  | nil => simp [firstVals]
  | cons r rs ih =>
      by_cases hr : r.hasField f
      · simp only [firstVals, hr, if_true, List.mem_cons, List.mem_filter,
          decide_eq_true_eq, ih]
        constructor
        · rintro (hv | ⟨⟨rec, hrec, hh, hg⟩, hne⟩)
          · exact ⟨r, by simp, hr, hv.symm⟩
          · exact ⟨rec, by simp [hrec], hh, hg⟩
        · rintro ⟨rec, hrec, hh, hg⟩
          rcases hrec with heq | hmem
          · subst heq; exact Or.inl hg.symm
          · by_cases hvr : v = r.get f
            · exact Or.inl hvr
            · exact Or.inr ⟨⟨rec, hmem, hh, hg⟩, hvr⟩
      · simp only [firstVals, hr, if_false, ih, Bool.false_eq_true]
        constructor
        · rintro ⟨rec, hrec, hh, hg⟩
          exact ⟨rec, by simp [hrec], hh, hg⟩
        · rintro ⟨rec, hrec, hh, hg⟩
          rcases List.mem_cons.mp hrec with heq | hmem
          · subst heq; exact absurd hh (by simp [hr])
          · exact ⟨rec, hmem, hh, hg⟩

theorem nodup_firstVals (f : String) (data : List SRecord) :
    (firstVals f data).Nodup := by
  induction data with
  | nil => simp [firstVals]
  | cons r rs ih =>
      by_cases hr : r.hasField f
      · simp only [firstVals, hr, if_true]
        refine List.Nodup.cons ?_ (List.Nodup.filter _ ih)
        intro hmem
        have := (List.mem_filter.mp hmem).2
        simp at this
      · simpa only [firstVals, hr, if_false] using ih

theorem posns_nil_of_not_mem (f : String) (v : JsValue) (data : List SRecord)
    (i0 : Nat) (h : v ∉ firstVals f data) :
    posns f v data i0 = [] := by
  induction data generalizing i0 with
  | nil => rfl
  | cons r rs ih =>
      rw [mem_firstVals] at h
      push_neg at h
      have hr : ¬ (r.hasField f ∧ r.get f = v) := by
        rintro ⟨hh, hg⟩
        exact absurd hg (h r (by simp) hh)
      simp only [posns, if_neg hr, List.nil_append]
      apply ih
      rw [mem_firstVals]
      push_neg
      intro rec hrec hh
      exact h rec (by simp [hrec]) hh

theorem firstVals_snoc (f : String) (seen : List SRecord) (r : SRecord) :
    firstVals f (seen ++ [r]) =
      if r.hasField f then
        (if r.get f ∈ firstVals f seen then firstVals f seen
         else firstVals f seen ++ [r.get f])
      else firstVals f seen := by
  induction seen with
  | nil =>
      by_cases hr : r.hasField f <;> simp [firstVals, hr]
  | cons s0 rest ih =>
      by_cases hs : s0.hasField f
      · simp only [List.cons_append, firstVals, hs, if_true, List.append_eq]
        rw [ih]
        by_cases hr : r.hasField f
        · rw [if_pos hr, if_pos hr]
          by_cases hmem : r.get f ∈ firstVals f rest
          · rw [if_pos hmem]
            have hmem2 : r.get f ∈ s0.get f :: (firstVals f rest).filter
                (fun w => decide (w ≠ s0.get f)) := by
              by_cases hra : r.get f = s0.get f
              · simp [hra]
              · exact List.mem_cons.mpr (Or.inr (List.mem_filter.mpr ⟨hmem, by simp [hra]⟩))
            rw [if_pos hmem2]
          · rw [if_neg hmem]
            by_cases hra : r.get f = s0.get f
            · have hmem2 : r.get f ∈ s0.get f :: (firstVals f rest).filter
                  (fun w => decide (w ≠ s0.get f)) := by simp [hra]
              rw [if_pos hmem2]
              simp only [List.filter_append, List.filter_cons, List.filter_nil]
              rw [if_neg (by simp [hra])]
              simp
            · have hmem2 : ¬ (r.get f ∈ s0.get f :: (firstVals f rest).filter
                  (fun w => decide (w ≠ s0.get f))) := by
                intro hin
                rcases List.mem_cons.mp hin with h1 | h2
                · exact hra h1
                · exact hmem (List.mem_filter.mp h2).1
              rw [if_neg hmem2]
              simp only [List.filter_append, List.filter_cons, List.filter_nil]
              rw [if_pos (by simp [hra])]
        · rw [if_neg hr, if_neg hr]
      · simp only [List.cons_append, firstVals, hs, if_false, Bool.false_eq_true,
          List.append_eq]
        exact ih

theorem applyIndicesBucket_no_match (v : JsValue) (n : Nat) (bs : List (List JsValue))
    (h : ∀ bk ∈ bs, jsHead bk ≠ v) :
    applyIndicesBucket v n bs = bs ++ [[v, .num (Int.ofNat n)]] := by
  induction bs with
  | nil => rfl
  | cons b rest ih =>
      rw [applyIndicesBucket, if_neg (h b (by simp)), ih (fun bk hbk => h bk (by simp [hbk]))]
      simp

theorem applyIndicesBucket_first_match (v : JsValue) (n : Nat)
    (pre post : List (List JsValue)) (bmid : List JsValue)
    (hpre : ∀ bk ∈ pre, jsHead bk ≠ v) (hmid : jsHead bmid = v) :
    applyIndicesBucket v n (pre ++ bmid :: post) =
      pre ++ (bmid ++ [.num (Int.ofNat n)]) :: post := by
  induction pre with
  | nil => simp [applyIndicesBucket, hmid]
  | cons b rest ih =>
      rw [List.cons_append, applyIndicesBucket, if_neg (hpre b (by simp)),
        ih (fun bk hbk => hpre bk (by simp [hbk]))]
      rfl

/-- One record's contribution to one field's bucket list, as performed by
`applyIndices`. -/
def stepField (f : String) (r : SRecord) (n : Nat) (bs : List (List JsValue)) :
    List (List JsValue) :=
  if r.hasField f then applyIndicesBucket (r.get f) n bs else bs

theorem stepField_spec (f : String) (r : SRecord) (seen : List SRecord) (i0 : Nat) :
    stepField f r (i0 + seen.length) (specBuckets f seen i0) =
      specBuckets f (seen ++ [r]) i0 := by
  unfold stepField
  by_cases hr : r.hasField f
  · rw [if_pos hr]
    set v := r.get f with hv
    by_cases hmem : v ∈ firstVals f seen
    · obtain ⟨p, q, hpq⟩ := List.append_of_mem hmem
      have hnodup := nodup_firstVals f seen
      rw [hpq] at hnodup
      have hvp : v ∉ p := fun hc =>
        (List.Nodup.not_mem (List.nodup_middle.mp hnodup)) (List.mem_append_left q hc)
      have hvq : v ∉ q := fun hc =>
        (List.Nodup.not_mem (List.nodup_middle.mp hnodup)) (List.mem_append_right p hc)
      have hbuck : specBuckets f seen i0 =
          p.map (fun w => w :: (posns f w seen i0).map (fun i => .num (Int.ofNat i))) ++
            (v :: (posns f v seen i0).map (fun i => .num (Int.ofNat i))) ::
            q.map (fun w => w :: (posns f w seen i0).map (fun i => .num (Int.ofNat i))) := by
        rw [specBuckets, hpq]
        simp
      rw [hbuck]
      rw [applyIndicesBucket_first_match _ _ _ _ _ ?hpre (by rfl)]
      case hpre =>
        intro bk hbk
        obtain ⟨w, hw, hwbk⟩ := List.mem_map.mp hbk
        rw [← hwbk]
        intro hcon
        simp only [jsHead, List.headD] at hcon
        exact hvp (hcon ▸ hw)
      rw [specBuckets, firstVals_snoc, if_pos hr, if_pos hmem, hpq]
      simp only [List.map_append, List.map_cons]
      congr 1
      · apply List.map_congr_left
        intro w hw
        rw [posns_snoc]
        have hwv : ¬ (r.hasField f ∧ r.get f = w) := by
          rintro ⟨-, hgw⟩
          exact hvp (by rw [hv, hgw] at hvp ⊢; exact hw)
        rw [if_neg hwv, List.append_nil]
      · congr 1
        · rw [posns_snoc, if_pos ⟨hr, rfl⟩]
          simp
        · apply List.map_congr_left
          intro w hw
          rw [posns_snoc]
          have hwv : ¬ (r.hasField f ∧ r.get f = w) := by
            rintro ⟨-, hgw⟩
            exact hvq (by rw [hv, hgw] at hvq ⊢; exact hw)
          rw [if_neg hwv, List.append_nil]
    · rw [applyIndicesBucket_no_match _ _ _ ?hpre]
      case hpre =>
        intro bk hbk
        obtain ⟨w, hw, hwbk⟩ := List.mem_map.mp hbk
        rw [← hwbk]
        intro hcon
        simp only [jsHead, List.headD] at hcon
        exact hmem (hcon ▸ hw)
      rw [specBuckets, specBuckets, firstVals_snoc, if_pos hr, if_neg hmem]
      rw [List.map_append]
      congr 1
      · apply List.map_congr_left
        intro w hw
        rw [posns_snoc]
        have hwv : ¬ (r.hasField f ∧ r.get f = w) := by
          rintro ⟨-, hgw⟩
          exact hmem (by rw [hv, hgw]; exact hw)
        rw [if_neg hwv, List.append_nil]
      · rw [List.map_cons, List.map_nil]
        rw [posns_snoc, if_pos ⟨hr, rfl⟩]
        rw [posns_nil_of_not_mem f v seen i0 hmem]
        simp
  · rw [if_neg hr]
    rw [specBuckets, specBuckets, firstVals_snoc, if_neg hr]
    apply List.map_congr_left
    intro w hw
    rw [posns_snoc]
    have hwv : ¬ (r.hasField f ∧ r.get f = w) := fun hc => hr hc.1
    rw [if_neg hwv, List.append_nil]

/-- The effect of the `reindex` loop on a single field's bucket list. -/
def buildIdxField (f : String) : List SRecord → Nat → List (List JsValue) → List (List JsValue)
  | [], _, bs => bs
  | r :: rs, n, bs => buildIdxField f rs (n + 1) (stepField f r n bs)

theorem lookup_applyIndices (s : Store) (r : SRecord) (n : Nat) (f : String) :
    ((s.applyIndices r n)._index).lookup f =
      (s._index.lookup f).map (fun bs => stepField f r n bs) := by
  show (s._index.map _).lookup f = _
  induction s._index with
  | nil => rfl
  | cons kv rest ih =>
      obtain ⟨k, bs⟩ := kv
      by_cases hk : k = f
      · subst hk
        by_cases hh : r.hasField k
        · rw [List.map_cons, if_pos hh]
          simp [List.lookup_cons, stepField, hh]
        · rw [List.map_cons, if_neg hh]
          simp [List.lookup_cons, stepField, hh]
      · have hbeq : (f == k) = false := beq_eq_false_iff_ne.mpr (fun hfk => hk hfk.symm)
        by_cases hh : r.hasField k
        · rw [List.map_cons, if_pos hh]
          rw [List.lookup_cons, List.lookup_cons]
          simp only [hbeq, ih]
        · rw [List.map_cons, if_neg hh]
          rw [List.lookup_cons, List.lookup_cons]
          simp only [hbeq, ih]

theorem applyAll_data (st : Store) (recs : List SRecord) (n : Nat) :
    (applyAll st recs n)._data = st._data := by
  induction recs generalizing st n with
  | nil => rfl
  | cons r rs ih =>
      rw [applyAll, ih]
      rfl

theorem lookup_applyAll (st : Store) (recs : List SRecord) (n : Nat) (f : String)
    (bs : List (List JsValue)) (h : st._index.lookup f = some bs) :
    ((applyAll st recs n)._index).lookup f = some (buildIdxField f recs n bs) := by
  induction recs generalizing st n bs with
  | nil => exact h
  | cons r rs ih =>
      rw [applyAll, buildIdxField]
      exact ih _ _ _ (by rw [lookup_applyIndices, h]; rfl)

theorem lookup_clearIndices (s : Store) (f : String) :
    ((s.clearIndices)._index).lookup f = (s._index.lookup f).map (fun _ => []) := by
  show (s._index.map _).lookup f = _
  induction s._index with
  | nil => rfl
  | cons kv rest ih =>
      obtain ⟨k, bs⟩ := kv
      by_cases hk : k = f
      · subst hk
        simp [List.lookup_cons]
      · have hbeq : (f == k) = false := beq_eq_false_iff_ne.mpr (fun hfk => hk hfk.symm)
        rw [List.map_cons, List.lookup_cons, List.lookup_cons]
        simp only [hbeq, ih]

theorem buildIdxField_spec (f : String) (recs : List SRecord) (seen : List SRecord)
    (i0 : Nat) :
    buildIdxField f recs (i0 + seen.length) (specBuckets f seen i0) =
      specBuckets f (seen ++ recs) i0 := by
  induction recs generalizing seen with
  | nil => rw [List.append_nil]; rfl
  | cons r rs ih =>
      rw [buildIdxField, stepField_spec]
      have hlen : i0 + seen.length + 1 = i0 + (seen ++ [r]).length := by
        simp only [List.length_append, List.length_cons, List.length_nil]
        omega
      rw [hlen, ih (seen ++ [r])]
      simp

theorem reindex_lookup (s : Store) (f : String) (bs0 : List (List JsValue))
    (h : s._index.lookup f = some bs0) :
    ((s.reindex)._index).lookup f = some (specBuckets f s._data 0) := by
  unfold Store.reindex
  rw [lookup_applyAll _ _ _ _ [] (by rw [lookup_clearIndices, h]; rfl)]
  have := buildIdxField_spec f s._data [] 0
  simp only [List.length_nil, Nat.add_zero, List.nil_append] at this
  rw [show specBuckets f [] 0 = [] from rfl] at this
  rw [this]

theorem reindex_data (s : Store) : (s.reindex)._data = s._data := by
  unfold Store.reindex
  rw [applyAll_data]
  rfl


theorem filter_eq_of_nodup (v : JsValue) (l : List JsValue) (hnd : l.Nodup) :
    l.filter (fun w => decide (w = v)) = if v ∈ l then [v] else [] := by
  induction l with
  | nil => simp
  | cons x xs ih =>
      rw [List.filter_cons]
      rcases List.nodup_cons.mp hnd with ⟨hx, hxs⟩
      by_cases hxv : x = v
      · subst hxv
        rw [if_pos (by simp), if_pos (by simp)]
        rw [ih hxs, if_neg hx]
      · rw [if_neg (by simp [hxv]), ih hxs]
        by_cases hv : v ∈ xs
        · rw [if_pos hv, if_pos (by simp [hv])]
        · rw [if_neg hv, if_neg (by simp [hv]; exact fun h => hxv h.symm)]

theorem filter_specBuckets (f : String) (data : List SRecord) (v : JsValue) :
    (specBuckets f data 0).filter (bucketMatches v) =
      if v ∈ firstVals f data then
        [v :: (posns f v data 0).map (fun i => .num (Int.ofNat i))]
      else [] := by
  rw [specBuckets, List.filter_map]
  have hcomp : (bucketMatches v ∘ fun w =>
      w :: (posns f w data 0).map (fun i => JsValue.num (Int.ofNat i))) =
      (fun w => decide (w = v)) := by
    funext w
    simp [bucketMatches, jsHead]
  rw [hcomp, filter_eq_of_nodup v _ (nodup_firstVals f data)]
  by_cases hmem : v ∈ firstVals f data
  · rw [if_pos hmem, if_pos hmem]
    rfl
  · rw [if_neg hmem, if_neg hmem]
    rfl

theorem jsArrayIndex_num (data : List SRecord) (i : Nat) :
    jsArrayIndex data (.num (Int.ofNat i)) = data.get? i := by
  show (if (Int.ofNat i) < 0 then none else data.get? (Int.ofNat i).toNat) = data.get? i
  rw [if_neg (by exact Int.not_lt.mpr (Int.ofNat_nonneg i))]
  rfl

theorem posns_extract (f : String) (v : JsValue) (post : List SRecord) :
    ∀ pre : List SRecord,
      (posns f v post pre.length).map (fun i => (pre ++ post).get? i) =
        (post.filter (fun r => r.hasField f && decide (r.get f = v))).map some := by
  induction post with
  | nil => intro pre; simp [posns]
  | cons r rs ih =>
      intro pre
      rw [posns, List.filter_cons]
      have hsplit : pre ++ r :: rs = (pre ++ [r]) ++ rs := by simp
      have hlen : pre.length + 1 = (pre ++ [r]).length := by simp
      by_cases hr : r.hasField f ∧ r.get f = v
      · rw [if_pos hr, if_pos (by simp [hr.1, hr.2])]
        rw [List.map_append]
        have hhead : List.map (fun i => (pre ++ r :: rs).get? i) [pre.length] = [some r] := by
          simp only [List.map_cons, List.map_nil]
          rw [List.get?_append_right (le_refl pre.length)]
          simp
        rw [hhead, List.map_cons]
        have htail := ih (pre ++ [r])
        rw [← hsplit, ← hlen] at htail
        rw [htail]
        rfl
      · rw [if_neg hr, if_neg (by
          rcases Decidable.not_and_iff_or_not.mp hr with h1 | h2
          · simp [h1]
          · simp [h2])]
        have htail := ih (pre ++ [r])
        rw [← hsplit, ← hlen] at htail
        rw [List.nil_append, htail]

theorem finalFilter_map_some (query : List (String × JsValue)) (l : List SRecord) :
    finalFilter query (l.map some) = .ok (l.filter (recordMatchesQuery query)) := by
  induction l with
  | nil => rfl
  | cons r rs ih =>
      rw [List.map_cons, finalFilter, ih, List.filter_cons]
      rfl

theorem findObject_single (s : Store) (f : String) (v : JsValue) (lst : List JsValue)
    (hne : s._data.isEmpty = false)
    (hgi : (s.getIndices f v).1 = some lst) :
    (s.findObject [(f, v)]).1 =
      finalFilter [(f, v)] (lst.map (fun w => jsArrayIndex s._data w)) := by
  set t := (s.getIndices f v).2 with ht
  have hp : s.getIndices f v = (some lst, t) := by
    rw [ht, ← hgi]
  unfold Store.findObject
  rw [hne]
  simp only [Bool.false_eq_true, if_false, List.foldl_cons, List.foldl_nil, hp]
  simp

/-- C3 (amended part, proved): immediately after `reindex`, on a store all of
whose records possess the indexed field `f`, the single-field indexed query
`find({f: v})` returns exactly the records whose current `f` strictly equals
`v` -- the same list the linear predicate scan `find(record => record[f] ===
v)` returns.  In general the equivalence fails because `getIndices` corrupts
the consulted bucket on every indexed query (see the counterexample). -/
theorem find_indexed_equiv_linear_after_reindex (s : Store) (f : String) (v : JsValue)
    (bs0 : List (List JsValue)) (hf : s._index.lookup f = some bs0)
    (hall : ∀ r ∈ s._data, r.hasField f = true) :
    (s.reindex.findObject [(f, v)]).1 =
      .ok (s._data.filter (fun r => decide (r.get f = v))) ∧
    s.reindex.findFunction (fun r => decide (r.get f = v)) =
      s._data.filter (fun r => decide (r.get f = v)) := by
  have hdata := reindex_data s
  have hfun : s.reindex.findFunction (fun r => decide (r.get f = v)) =
      s._data.filter (fun r => decide (r.get f = v)) := by
    unfold Store.findFunction
    rw [hdata]
    by_cases hemp : s._data.isEmpty
    · rw [if_pos hemp, List.isEmpty_iff.mp hemp]
      rfl
    · rw [if_neg hemp]
  refine ⟨?_, hfun⟩
  by_cases hemp : s._data.isEmpty
  · have hnil := List.isEmpty_iff.mp hemp
    unfold Store.findObject
    rw [hdata, hnil]
    simp
  · have hne : (s.reindex)._data.isEmpty = false := by
      rw [hdata]
      exact Bool.eq_false_iff.mpr hemp
    have hlook := reindex_lookup s f bs0 hf
    by_cases hmem : v ∈ firstVals f s._data
    · have hfil : (specBuckets f s._data 0).filter (bucketMatches v) =
          [v :: (posns f v s._data 0).map (fun i => .num (Int.ofNat i))] := by
        rw [filter_specBuckets, if_pos hmem]
      have hgi : ((s.reindex).getIndices f v).1 =
          some ((posns f v s._data 0).map (fun i => .num (Int.ofNat i))) := by
        unfold Store.getIndices
        simp only [hlook, hfil]
        rfl
      rw [findObject_single _ _ _ _ hne hgi, hdata, List.map_map]
      have hcomp : ((posns f v s._data 0).map
          ((fun w => jsArrayIndex s._data w) ∘ (fun i => JsValue.num (Int.ofNat i)))) =
          (posns f v s._data 0).map (fun i => s._data.get? i) :=
        List.map_congr_left (fun i _ => jsArrayIndex_num s._data i)
      rw [hcomp]
      have hext := posns_extract f v s._data []
      simp only [List.length_nil, List.nil_append] at hext
      rw [hext]
      rw [finalFilter_map_some]
      have hcond : s._data.filter (fun r => r.hasField f && decide (r.get f = v)) =
          s._data.filter (fun r => decide (r.get f = v)) := by
        apply List.filter_congr
        intro r hr
        rw [hall r hr, Bool.true_and]
      rw [hcond]
      have hkeep : (s._data.filter (fun r => decide (r.get f = v))).filter
          (recordMatchesQuery [(f, v)]) =
          s._data.filter (fun r => decide (r.get f = v)) := by
        rw [List.filter_eq_self]
        intro r hr
        have hgv : r.get f = v := by
          have := (List.mem_filter.mp hr).2
          simpa using this
        simp [recordMatchesQuery, hgv]
      rw [hkeep]
    · have hfil : (specBuckets f s._data 0).filter (bucketMatches v) = [] := by
        rw [filter_specBuckets, if_neg hmem]
      have hgi : ((s.reindex).getIndices f v).1 = some [] := by
        unfold Store.getIndices
        simp only [hlook, hfil]
      rw [findObject_single _ _ _ _ hne hgi]
      have hnorec : s._data.filter (fun r => decide (r.get f = v)) = [] := by
        rw [List.filter_eq_nil_iff]
        intro r hr
        simp only [decide_eq_true_eq]
        intro hgv
        exact hmem ((mem_firstVals f v s._data).mpr ⟨r, hr, hall r hr, hgv⟩)
      rw [hnorec]
      rfl

/-- Claim C3 as stated: for every store, indexed field `f` and value `v`, the
indexed query `find({f: v})` returns exactly the set of records whose current
`f` equals `v` -- the same result as the linear predicate scan. -/
def C3Statement : Prop :=
  ∀ (s : Store) (f : String) (v : JsValue),
    (s._index.lookup f).isSome →
    ∃ l, (s.findObject [(f, v)]).1 = .ok l ∧
      (∀ r, r ∈ l ↔ r ∈ s._data.filter (fun rec => decide (rec.get f = v)))

/-- Store configured with `index: ['f']`, before any record is added. -/
def ceStore3Init : Store :=
  { _data := [], _index := [("f", [])], _created := [], _deleted := [],
    allowDuplicates := true, errorOnDuplicate := true, _loading := false }

/-- Two records with `f = "x"` added to `ceStore3Init`; its index is the
canonical one built by the two `add` calls. -/
def ceStore3 : Store :=
  ((ceStore3Init.add ⟨0, [("f", .str "x"), ("g", .num 1)], 201⟩).1.add
    ⟨1, [("f", .str "x"), ("g", .num 2)], 202⟩).1

/-- State of `ceStore3` after one indexed query `find({f: "x"})`: the query
answer was correct, but the bucket for "x" lost its leading value element. -/
def ceStore3Q : Store := (ceStore3.findObject [("f", .str "x")]).2

/-- C3 (counterexample): on the reachable store `ceStore3Q` -- produced from
an empty indexed store by two `add` calls and one indexed `find` -- a second
`find({f: "x"})` returns the empty list even though both records have
`f = "x"` and the linear scan returns both, refuting the claim as stated. -/
theorem find_indexed_not_equiv_linear : ¬ C3Statement := by
  intro h
  obtain ⟨l, hl, hiff⟩ := h ceStore3Q "f" (.str "x") (by decide)
  have hres : (ceStore3Q.findObject [("f", .str "x")]).1 = .ok [] := by rfl
  rw [hres] at hl
  have hleq : l = [] := (Except.ok.injEq _ _).mp hl.symm
  subst hleq
  have h0 := (hiff ⟨0, [("f", .str "x"), ("g", .num 1)], 201⟩).mpr (by decide)
  simp at h0

/-- Witness for the amended C3 theorem at the concrete store `ceStore3`. -/
theorem find_indexed_equiv_witness :
    (ceStore3.reindex.findObject [("f", .str "x")]).1 =
      .ok (ceStore3._data.filter (fun r => decide (r.get "f" = .str "x"))) ∧
    ceStore3.reindex.findFunction (fun r => decide (r.get "f" = .str "x")) =
      ceStore3._data.filter (fun r => decide (r.get "f" = .str "x")) :=
  find_indexed_equiv_linear_after_reindex ceStore3 "f" (.str "x")
    [[.str "x", .num 0, .num 1]] (by decide) (by decide)

/-- Direction entry of the declarative sort map, after the source's
normalisation `fn[k].toString().trim().toLowerCase()`: the strings `asc` and
`desc`, a comparator function (`typeof fn[k] === 'function'`), or any other
value (whose comparison contributes 0). -/
inductive SortDir where
  | asc
  | desc
  | custom (cmp : SRecord → SRecord → Int)
  | other

/-- JavaScript `ToString` on the embedded primitive values (used because
`String.prototype.localeCompare` coerces its argument to a string). -/
def jsToString : JsValue → String
  | .str s => s
  | .num n => toString n
  | .nul => "null"
  | .undef => "undefined"

/-- Model of `String.prototype.localeCompare` restricted to its sign:
negative, zero or positive according to lexicographic string order. -/
def localeCmp (x y : String) : Int :=
  if x = y then 0 else if x < y then -1 else 1

/-- The `asc` branch of the sort comparator (src/unnamed/part_001, lines
777-781): the guard `typeof a.fields[k]` is always a truthy string, so the
branch always evaluates `a[k].localeCompare(b[k])`.  Only strings have a
`localeCompare` method; on a number, `null` or `undefined` receiver the call
throws a `TypeError`.  The argument is coerced to a string. -/
def jsCompareAsc (a b : JsValue) : Except String Int :=
  match a with
  | .str x => .ok (localeCmp x (jsToString b))
  | _ => .error "TypeError: localeCompare is not a function"

/-- JavaScript `Number(string)` restricted to optionally signed decimal
integers (all the embedding needs); `none` models `NaN`. -/
def parseJsNumber (s : String) : Option Int :=
  let t := s.trim
  if t = "" then some 0
  else if t.startsWith "-" then (t.drop 1).toNat?.map (fun n => -(n : Int))
  else if t.startsWith "+" then (t.drop 1).toNat?.map (fun n => (n : Int))
  else t.toNat?.map (fun n => (n : Int))

/-- JavaScript `ToNumber` on the embedded primitive values. -/
def toNumber : JsValue → Option Int
  | .num n => some n
  | .nul => some 0
  | .undef => none
  | .str s => parseJsNumber s

/-- JavaScript relational `<` on the embedded values: two strings compare
lexicographically, otherwise both sides are coerced to numbers and any `NaN`
makes the comparison false. -/
def jsLtVal (a b : JsValue) : Bool :=
  match a, b with
  | .str x, .str y => decide (x < y)
  | _, _ =>
      match toNumber a, toNumber b with
      | some m, some n => decide (m < n)
      | _, _ => false

/-- Model of the declarative comparator built by `Store.sort`
(src/unnamed/part_001, lines 763-795): walk the sort keys in the map's key
order; if exactly one record owns the key, return 1 when `a` owns it and -1
when `b` does; at the first key whose values differ strictly, decide by the
direction (`asc` locale comparison, `desc` relational, custom function,
anything else 0); if every key agrees, return 0. -/
def jsSortCompare (keys : List (String × SortDir)) (a b : SRecord) : Except String Int :=
  match keys with
  | [] => .ok 0
  | (k, dir) :: rest =>
      if a.hasField k ∧ ¬ (b.hasField k = true) then .ok 1
      else if ¬ (a.hasField k = true) ∧ b.hasField k then .ok (-1)
      else if ¬ (a.get k = b.get k) then
        match dir with
        | .asc => jsCompareAsc (a.get k) (b.get k)
        | .desc => .ok (if jsLtVal (a.get k) (b.get k) then 1 else -1)
        | .custom cmp => .ok (cmp a b)
        | .other => .ok 0
      else jsSortCompare rest a b

/-- The decision one sort key contributes, written from the amended claim:
at the first key where the records differ in presence or value, a record
lacking the key precedes the record owning it (the owner is pushed after,
result 1 when `a` owns it), and otherwise the values decide per direction;
a key on which the records agree decides nothing. -/
def keyDecision (a b : SRecord) (kd : String × SortDir) : Option (Except String Int) :=
  if a.hasField kd.1 ∧ ¬ (b.hasField kd.1 = true) then some (.ok 1)
  else if ¬ (a.hasField kd.1 = true) ∧ b.hasField kd.1 then some (.ok (-1))
  else if ¬ (a.get kd.1 = b.get kd.1) then
    some (match kd.2 with
      | .asc => jsCompareAsc (a.get kd.1) (b.get kd.1)
      | .desc => .ok (if jsLtVal (a.get kd.1) (b.get kd.1) then 1 else -1)
      | .custom cmp => .ok (cmp a b)
      | .other => .ok 0)
  else none

/-- Lexicographic reading of the amended claim: the first key (in map order)
that yields a decision determines the order; if no key decides, the records
compare equal. -/
def lexCompareSpec (keys : List (String × SortDir)) (a b : SRecord) : Except String Int :=
  match keys.findSome? (fun kd => keyDecision a b kd) with
  | some res => res
  | none => .ok 0

/-- C6 (amended part, proved): the declarative sort comparator is exactly the
lexicographic multi-key comparison in the map's key order -- the first key at
which the records differ in presence or value determines the order -- but a
record *lacking* a sort field is ordered first, before the record that has it
(the source returns 1 when `a` owns the key and `b` lacks it), contrary to
the claim's "ordered last". -/
theorem sortCompare_lexicographic (keys : List (String × SortDir)) (a b : SRecord) :
    jsSortCompare keys a b = lexCompareSpec keys a b := by
  induction keys with
  | nil => rfl
  | cons kd rest ih =>
      obtain ⟨k, dir⟩ := kd
      rw [jsSortCompare.eq_def, lexCompareSpec, List.findSome?_cons]
      simp only []
      by_cases h1 : a.hasField k ∧ ¬ (b.hasField k = true)
      · rw [if_pos h1]
        rw [keyDecision]
        simp only [if_pos h1]
      · rw [if_neg h1, keyDecision]
        simp only [if_neg h1]
        by_cases h2 : ¬ (a.hasField k = true) ∧ b.hasField k
        · rw [if_pos h2]
          simp only [if_pos h2]
        · rw [if_neg h2]
          simp only [if_neg h2]
          by_cases h3 : ¬ (a.get k = b.get k)
          · rw [if_pos h3]
            simp only [if_pos h3]
          · rw [if_neg h3]
            simp only [if_neg h3]
            rw [ih, lexCompareSpec]

/-- The claim's reading of the missing-field rule: the record lacking the
sort field is ordered last, i.e. the comparator returns -1 (a first) when `a`
owns the key that `b` lacks, and 1 (a last) when `a` lacks it. -/
def keyDecisionLast (a b : SRecord) (kd : String × SortDir) : Option (Except String Int) :=
  if a.hasField kd.1 ∧ ¬ (b.hasField kd.1 = true) then some (.ok (-1))
  else if ¬ (a.hasField kd.1 = true) ∧ b.hasField kd.1 then some (.ok 1)
  else if ¬ (a.get kd.1 = b.get kd.1) then
    some (match kd.2 with
      | .asc => jsCompareAsc (a.get kd.1) (b.get kd.1)
      | .desc => .ok (if jsLtVal (a.get kd.1) (b.get kd.1) then 1 else -1)
      | .custom cmp => .ok (cmp a b)
      | .other => .ok 0)
  else none

/-- Lexicographic comparison with the claim's missing-field rule. -/
def lexCompareLast (keys : List (String × SortDir)) (a b : SRecord) : Except String Int :=
  match keys.findSome? (fun kd => keyDecisionLast a b kd) with
  | some res => res
  | none => .ok 0

/-- Claim C6 as stated: the declarative comparator compares key by key in the
map's key order, the first non-equal key determines the order, and a record
lacking a sort field is ordered last (after the record that has it). -/
def C6Statement : Prop :=
  ∀ (keys : List (String × SortDir)) (a b : SRecord),
    jsSortCompare keys a b = lexCompareLast keys a b

/-- C6 (counterexample): sorting by `{k: 'asc'}` a record owning `k` against
a record lacking it, the comparator returns 1 -- placing the owner after the
lacking record, so the record lacking the field comes first, not last. -/
theorem sort_missing_field_not_last : ¬ C6Statement := by
  intro h
  have hc := h [("k", SortDir.asc)] ⟨0, [("k", .str "A")], 0⟩ ⟨1, [], 0⟩
  have hl : jsSortCompare [("k", SortDir.asc)] ⟨0, [("k", .str "A")], 0⟩ ⟨1, [], 0⟩ =
      .ok 1 := by rfl
  have hr : lexCompareLast [("k", SortDir.asc)] ⟨0, [("k", .str "A")], 0⟩ ⟨1, [], 0⟩ =
      .ok (-1) := by rfl
  rw [hl, hr] at hc
  have : (1 : Int) = -1 := (Except.ok.injEq _ _).mp hc
  exact absurd this (by decide)

/-- Kind of a model changelog entry (`action` key of the objects pushed onto
`this.changelog` in src/tests/core/01-sanity.js). -/
inductive ChangeAction where
  | update
  | create
  | delete
deriving DecidableEq, Repr

/-- Changelog entry of a model (src/tests/core/01-sanity.js).  An `update`
entry carries `old`/`new`, a field `delete` entry carries `value`, a `create`
entry carries only the field name; relationship entries additionally carry
`join: true`.  Absent keys are `none`. -/
structure Change where
  action : ChangeAction
  field : String
  old : Option JsValue := none
  new : Option JsValue := none
  value : Option JsValue := none
  join : Option Bool := none
deriving DecidableEq, Repr

/-- Declared data field of a model: its name and configured default value.
The validation-related parts of a field definition (`required`, `type`,
`pattern`, ...) only feed the validator machinery, which mutates nothing the
claims observe, and are omitted. -/
structure FieldDef where
  name : String
  dflt : JsValue
deriving DecidableEq, Repr

/-- Model of `NGN.DATA.Model` state (src/tests/core/01-sanity.js, lines
84-1324) for the configurations the claims exercise: no relationships, no
virtuals, no `dataMap`, `autoid` disabled, `idAttribute` the default "id".
`benchmark` is the checksum snapshot against which `modified` compares
(`null`, i.e. `none`, until `setUnmodified` runs). -/
structure MModel where
  fields : List FieldDef
  raw : List (String × JsValue)
  changelog : List Change
  benchmark : Option Nat
  oid : JsValue
deriving DecidableEq, Repr

/-- `/^[a-z0-9 ]$/.test(key.substr(0, 1))` from `serialize`
(src/tests/core/01-sanity.js:800): the first character of the key must be a
lowercase ASCII letter, a digit or a space (false for the empty string, whose
`substr(0,1)` is `""` and fails the single-character anchors). -/
def firstCharOk (k : String) : Bool :=
  match k.data with
  | [] => false
  | c :: _ =>
      (decide ('a' ≤ c) && decide (c ≤ 'z')) ||
      (decide ('0' ≤ c) && decide (c ≤ '9')) ||
      decide (c = ' ')

/-- JSON string escaping as performed by `JSON.stringify` for the characters
occurring in the modelled values (quote, backslash and the common control
characters; other characters are emitted verbatim). -/
def jsonEscapeChar (c : Char) : String :=
  if c = '"' then "\\\""
  else if c = '\\' then "\\\\"
  else if c = '\n' then "\\n"
  else if c = '\t' then "\\t"
  else if c = '\r' then "\\r"
  else String.singleton c

/-- `JSON.stringify` of a string value. -/
def jsonString (s : String) : String :=
  "\"" ++ String.join (s.data.map jsonEscapeChar) ++ "\""

/-- `JSON.stringify` of one primitive value inside an object: `none` means the
key is dropped entirely (the JS value `undefined`). -/
def jsonValue : JsValue → Option String
  | .undef => none
  | .nul => some "null"
  | .num n => some (toString n)
  | .str s => some (jsonString s)

/-- `JSON.stringify` of a plain object given as an insertion-ordered
association list (keys with `undefined` values are dropped). -/
def jsonObj (l : List (String × JsValue)) : String :=
  "\x7b" ++
    String.intercalate ","
      (l.filterMap (fun kv => (jsonValue kv.2).map (fun sv => jsonString kv.1 ++ ":" ++ sv)))
    ++ "\x7d"

/-- `Model.serialize` (src/tests/core/01-sanity.js:793-837) restricted to one
pass over `this.raw` (no joins, no nested models, primitive values).  Per key:
keys that are not declared fields are skipped; a declared key whose first
character passes `/^[a-z0-9 ]$/` is emitted with its raw value (none of the
modelled values is a function or an array, so the `switch` falls through to
`rtn[key] = _obj[key]`); otherwise, if the value is `undefined` the key is
silently skipped, and if it is not the code evaluates
`_obj.enumerableProperties.indexOf(key)` on the undefined
`enumerableProperties` property and throws a TypeError.  (The assignment
`_obj.nonEnumerableProperties = _obj.nonEnumerableProperties || ''` also adds
a bookkeeping key to `raw`; that key is never a declared field and never
reaches the output, `data`, the checksum or the changelog, so it is not
tracked.) -/
def serializeRaw (fields : List FieldDef) : List (String × JsValue) → Except String (List (String × JsValue))
  | [] => .ok []
  | (k, v) :: rest =>
      if fields.any (fun fd => fd.name = k) then
        if firstCharOk k then do
          let tl ← serializeRaw fields rest
          .ok ((k, v) :: tl)
        else if v = .undef then
          serializeRaw fields rest
        else
          .error "TypeError: Cannot read property indexOf of undefined"
      else
        serializeRaw fields rest

/-- The model's `data` getter (src/tests/core/01-sanity.js:559-583) with
`autoid` off and no `dataMap`: just `this.serialize()`. -/
def modelData (m : MModel) : Except String (List (String × JsValue)) :=
  serializeRaw m.fields m.raw

/-- The model's `checksum` getter (src/tests/core/01-sanity.js:502):
`NGN.DATA.util.checksum(JSON.stringify(this.data))`. -/
def checksumModel (m : MModel) : Except String Nat :=
  (modelData m).map (fun d => checksum (jsonObj d))

/-- Checksums of a list of models, failing like the source if any single
`checksum` getter throws. -/
def listChecksums : List MModel → Except String (List Nat)
  | [] => .ok []
  | m :: ms => do
      let c0 ← checksumModel m
      let c ← listChecksums ms
      .ok (c0 :: c)

/-- The model's `modified` getter (src/tests/core/01-sanity.js:509):
`this.checksum !== this.benchmark`.  The checksum is a number while the
benchmark is `null` (`none`) until `setUnmodified` runs, so strict inequality
is `some c ≠ m.benchmark`. -/
def MModel.modified (m : MModel) : Except String Bool :=
  (checksumModel m).map (fun c => decide (some c ≠ m.benchmark))

/-- JavaScript falsiness of the modelled primitive values (drives the
`me.fields[field].default || null` normalisation in `addField`). -/
def jsFalsy : JsValue → Bool
  | .undef => true
  | .nul => true
  | .num n => decide (n = 0)
  | .str s => decide (s = "")

/-- `me.fields[field].default = me.fields[field].default || null`
(src/tests/core/01-sanity.js:869). -/
def normDefault (v : JsValue) : JsValue := if jsFalsy v then .nul else v

/-- `field.toLowerCase()` for the ASCII field names the code compares against
"id" (character-wise lowercasing). -/
def strToLower (s : String) : String := String.mk (s.data.map Char.toLower)

/-- The constructor's `if (!me.fields.hasOwnProperty('id'))` block
(src/tests/core/01-sanity.js:405-411): a field literally named "id" is
appended when none is declared (its normalised default is `null`). -/
def ensureId (schema : List FieldDef) : List FieldDef :=
  if schema.any (fun fd => fd.name = "id") then schema else schema ++ [⟨"id", .nul⟩]

/-- The `raw` object after the constructor has run `addField` for every
declared field (src/tests/core/01-sanity.js:415-417, 849-963): fields whose
lowercased name is "id" get no raw slot; every other field gets its normalised
default. -/
def initRaw (fields : List FieldDef) : List (String × JsValue) :=
  (fields.filter (fun fd => decide (strToLower fd.name ≠ "id"))).map
    (fun fd => (fd.name, normDefault fd.dflt))

/-- A model fresh out of `new Model(cfg)` before any `load`:
`changelog = []`, `benchmark = null`, `oid = null`. -/
def initModel (schema : List FieldDef) : MModel :=
  { fields := ensureId schema
    raw := initRaw (ensureId schema)
    changelog := []
    benchmark := none
    oid := .nul }

/-- Assignment through a declared field's setter (src/tests/core/01-sanity.js:
893-928) with validation passing and no events observed: `raw[field]` is
overwritten and `{action:'update', field, old, new}` is pushed onto the
changelog (where `new` re-reads `me.raw[field]`, i.e. the assigned value).
The setter exists only for declared fields, which always own a raw slot, so a
map-replace over `raw` is exact. -/
def MModel.setField (m : MModel) (f : String) (v : JsValue) : MModel :=
  { m with
    raw := m.raw.map (fun kv => if kv.1 = f then (kv.1, v) else kv)
    changelog := m.changelog ++
      [{ action := .update, field := f
         old := some ((m.raw.lookup f).getD .undef)
         new := some v }] }

/-- `Model.removeField` (src/tests/core/01-sanity.js:975-998) with events
suppressed to state: when `raw` owns the name, the field definition and the
raw slot are deleted and `{action:'delete', field, value}` is pushed;
otherwise nothing happens. -/
def MModel.removeField (m : MModel) (f : String) : MModel :=
  if (m.raw.lookup f).isSome then
    { m with
      raw := m.raw.filter (fun kv => decide (kv.1 ≠ f))
      fields := m.fields.filter (fun fd => decide (fd.name ≠ f))
      changelog := m.changelog ++
        [{ action := .delete, field := f
           value := some ((m.raw.lookup f).getD .undef) }] }
  else m

/-- `Model.addField(field)` called with a plain string and `suppressEvents`
falsy (src/tests/core/01-sanity.js:849-963): names lowercasing to "id" are
skipped entirely (`autoid` is off, so the `else` branch does nothing); an
undeclared name gets the definition `{required:1, type:String, default:null}`
(default `null` after normalisation); the raw slot is (re)created with the
normalised default; `{action:'create', field}` is pushed. -/
def MModel.addField (m : MModel) (f : String) : MModel :=
  if strToLower f = "id" then m
  else
    let dflt : JsValue :=
      match m.fields.find? (fun fd => fd.name = f) with
      | some fd => normDefault fd.dflt
      | none => .nul
    { m with
      fields :=
        if (m.fields.find? (fun fd => fd.name = f)).isSome then m.fields
        else m.fields ++ [⟨f, .nul⟩]
      raw :=
        if (m.raw.lookup f).isSome then
          m.raw.map (fun kv => if kv.1 = f then (kv.1, dflt) else kv)
        else m.raw ++ [(f, dflt)]
      changelog := m.changelog ++ [{ action := .create, field := f }] }

/-- One iteration of `undo`'s `old.reverse().forEach` callback
(src/tests/core/01-sanity.js:1250-1275).  A non-join `update` re-assigns the
field through its setter with `change.old`; `create` removes the field;
`delete` re-adds it (with events, pushing a `create` entry) and then assigns
`me.old` — a typo for `change.old` — whose value is `undefined`, so the setter
runs with `undefined`.  The join branches concern relationship fields, which
the modelled configurations never declare, so such entries never occur in a
reachable changelog; they are mapped to the identity. -/
def MModel.applyUndoChange (m : MModel) (c : Change) : MModel :=
  if ¬ c.join.getD false then
    match c.action with
    | .update => m.setField c.field (c.old.getD .undef)
    | .create => m.removeField c.field
    | .delete => (m.addField c.field).setField c.field .undef
  else m

/-- `Model.undo(back)` (src/tests/core/01-sanity.js:1245-1276):
`back = back || 1`; `splice(length - back, back)` removes the final `back`
entries (all of them when `back` exceeds the length, matching truncated
subtraction) and the removed entries are replayed newest-first. -/
def MModel.undo (m : MModel) (back : Nat) : MModel :=
  let b := if back = 0 then 1 else back
  let old := m.changelog.drop (m.changelog.length - b)
  let m0 := { m with changelog := m.changelog.take (m.changelog.length - b) }
  old.reverse.foldl MModel.applyUndoChange m0

/-- The `history` getter (src/tests/core/01-sanity.js:589-591):
`return this.changelog.reverse()`.  `Array.prototype.reverse` reverses the
array IN PLACE and returns the same array, so the getter both yields the
reversed changelog and leaves `this.changelog` reversed; the pair is
(returned array, model afterwards). -/
def MModel.history (m : MModel) : List Change × MModel :=
  (m.changelog.reverse, { m with changelog := m.changelog.reverse })

/-- One iteration of `load`'s key loop (src/tests/core/01-sanity.js:1300-1321)
with no `dataMap` and no joins: keys that are declared fields overwrite their
raw slot when one exists; the key equal to `idAttribute` ("id") has no raw
slot and sets `me.id`, i.e. `oid`; undeclared keys only warn. -/
def loadStep (acc : MModel) (kv : String × JsValue) : MModel :=
  if acc.fields.any (fun fd => fd.name = kv.1) then
    if (acc.raw.lookup kv.1).isSome then
      { acc with raw := acc.raw.map (fun rv => if rv.1 = kv.1 then (rv.1, kv.2) else rv) }
    else if kv.1 = "id" then { acc with oid := kv.2 }
    else acc
  else acc

/-- `Model.load(data)` followed by `setUnmodified`
(src/tests/core/01-sanity.js:1285-1323, 249-252): apply every key, then set
`benchmark` to the current checksum (propagating a serialization TypeError)
and clear the changelog. -/
def MModel.load (m : MModel) (d : List (String × JsValue)) : Except String MModel := do
  let m1 := d.foldl loadStep m
  let c ← checksumModel m1
  .ok { m1 with benchmark := some c, changelog := [] }

/-- `new Model(cfg)` followed by `model.load(data)`, which is what the store's
model loader does for a plain data object (part_001: the `NgnDataModel`
wrapper returned by the store's `model` cfg). -/
def modelNew (schema : List FieldDef) (d : List (String × JsValue)) : Except String MModel :=
  (initModel schema).load d

/-- `NGN.DATA.Store` configured with a `model` (src/unnamed/part_001), for
stores whose records are models rather than the raw `SRecord`s above.  The
flag defaults are `allowDuplicates = true` and
`errorOnDuplicate = coalesce(cfg.errorOnDuplicate, cfg.allowDuplicates, true)`
(part_001:55-63); a store built with an empty cfg has both `true`. -/
structure ModelStore where
  schema : List FieldDef
  _data : List MModel
  _created : List MModel
  _deleted : List MModel
  allowDuplicates : Bool
  errorOnDuplicate : Bool
  _loading : Bool
deriving Repr

/-- `new NGN.DATA.Store({model: NGN.DATA.Model(schemaCfg)})`. -/
def freshModelStore (schema : List FieldDef) : ModelStore :=
  { schema := schema, _data := [], _created := [], _deleted := []
    allowDuplicates := true, errorOnDuplicate := true, _loading := false }

/-- `Store.isDuplicate` for model records (part_001:231-238):
`indexOf(record) >= 0` short-circuits to `false`; otherwise every stored
record's `checksum` getter runs and is compared to the new record's.  The
source's `indexOf` uses object identity; structural equality of the model
state stands in for it (distinct model objects with equal state compare
equal here, which only widens the early-`false` case and is irrelevant when
`allowDuplicates` is `true`, as in every modelled load).  Each `checksum`
access can throw a serialization TypeError, which propagates. -/
def ModelStore.isDuplicate (s : ModelStore) (record : MModel) : Except String Bool :=
  if s._data.contains record then .ok false
  else do
    let c0 ← checksumModel record
    let cs ← listChecksums s._data
    .ok (cs.any (fun x => x = c0))

/-- `Store.add(data, true)` on a model store where `data` is a plain object
(part_001:180-219): `data instanceof NGN.DATA.Entity` is false, the
`JSON.parse` attempt throws and is swallowed, `typeof data === 'object'`
holds and `record = new this.model(data)` builds and loads a model.  Then
the duplicate check, `applyIndices` (a no-op: these stores declare no index
configuration) and the `_data` push; `_created` only grows outside `_loading`.
Result: the new store and the returned record (`none` for the silent
duplicate `return`). -/
def ModelStore.add (s : ModelStore) (d : List (String × JsValue)) :
    Except String (ModelStore × Option MModel) := do
  let record ← modelNew s.schema d
  let dupe ← s.isDuplicate record
  if dupe ∧ ¬ s.allowDuplicates then
    if s.errorOnDuplicate then
      .error "Cannot add duplicate record (allowDuplicates = false)."
    else .ok (s, none)
  else
    let s2 := { s with _data := s._data ++ [record] }
    let s3 :=
      if ¬ s._loading ∧ ¬ s2._created.contains record then
        { s2 with _created := s2._created ++ [record] }
      else s2
    .ok (s3, some record)

/-- The `data.forEach(record => me.add(record, true))` loop of `bulk`. -/
def ModelStore.addAllLoading : ModelStore → List (List (String × JsValue)) → Except String ModelStore
  | s, [] => .ok s
  | s, d :: ds => do
      let (s1, _) ← s.add d
      ModelStore.addAllLoading s1 ds

/-- `Store.bulk(event, data)` (part_001:269-279): `_loading` is raised for the
duration of the adds, then `_deleted` and `_created` are reset. -/
def ModelStore.bulk (s : ModelStore) (ds : List (List (String × JsValue))) :
    Except String ModelStore := do
  let s2 ← ModelStore.addAllLoading { s with _loading := true } ds
  .ok { s2 with _loading := false, _deleted := [], _created := [] }

/-- `Store.load(array)` (part_001:292-295): `bulk('load', array)`. -/
def ModelStore.load (s : ModelStore) (ds : List (List (String × JsValue))) :
    Except String ModelStore :=
  s.bulk ds

/-- `data` getters of all records in order, failing like the source if any
single record's serialization throws. -/
def modelDataList : List MModel → Except String (List (List (String × JsValue)))
  | [] => .ok []
  | m :: ms => do
      let d ← modelData m
      let ds ← modelDataList ms
      .ok (d :: ds)

/-- The store's `data` getter (part_001: `this._data.map(rec => rec.data)`),
named `dataOf` because `_data` occupies the field name. -/
def ModelStore.dataOf (s : ModelStore) : Except String (List (List (String × JsValue))) :=
  modelDataList s._data

/-- Failing input for the `history` claim: two sequential updates of the
declared field "x" (null to 1, then 1 to 2). -/
def c8a : Change := { action := .update, field := "x", old := some .nul, new := some (.num 1) }

/-- The second (most recent) update entry of the failing input. -/
def c8b : Change := { action := .update, field := "x", old := some (.num 1), new := some (.num 2) }

/-- The model holding the failing input: field "x" currently 2, changelog
`[c8a, c8b]` in chronological order. -/
def c8m : MModel :=
  { fields := [⟨"x", .nul⟩, ⟨"id", .nul⟩]
    raw := [("x", .num 2)]
    changelog := [c8a, c8b]
    benchmark := none
    oid := .nul }

/-- C8: the claim says every access of `history` returns newest-first and
leaves the stored changelog's chronological order unchanged, so `undo` still
consumes the most recent change.  The getter `return this.changelog.reverse()`
reverses the changelog IN PLACE (contradicting its own documentation, which
promises the list "from the most recent change to the oldest"): the first
access does return newest-first, but the stored changelog is left reversed, a
second access returns oldest-first, and after one `history` access `undo(1)`
replays the OLDEST change (restoring "x" to null) instead of the most recent
one (which would restore "x" to 1). -/
theorem history_reverses_changelog_in_place :
    c8m.history.1 = [c8b, c8a] ∧
    c8m.history.2.changelog = [c8b, c8a] ∧
    c8m.history.2.history.1 = [c8a, c8b] ∧
    (c8m.undo 1).raw = [("x", .num 1)] ∧
    (c8m.history.2.undo 1).raw = [("x", JsValue.nul)] :=
  ⟨rfl, rfl, rfl, rfl, rfl⟩

/-- Writing a raw slot through the field setter's map-replace makes a
subsequent lookup of that key return the written value. -/
theorem lookup_rawSet (raw : List (String × JsValue)) (f : String) (v : JsValue)
    (hf : (raw.lookup f).isSome) :
    (raw.map (fun kv => if kv.1 = f then (kv.1, v) else kv)).lookup f = some v := by
  induction raw with
  | nil => simp [List.lookup] at hf
  | cons kv rest ih =>
      obtain ⟨k, w⟩ := kv
      by_cases hk : k = f
      · subst hk
        rw [List.map_cons, if_pos rfl, List.lookup_cons]
        simp
      · have hbeq : (f == k) = false := beq_eq_false_iff_ne.mpr (fun h => hk h.symm)
        rw [List.lookup_cons, hbeq] at hf
        rw [List.map_cons, if_neg hk, List.lookup_cons, hbeq]
        exact ih hf

/-- Re-writing the first-found old value back over a set slot restores the
original raw list, provided the keys are duplicate-free. -/
theorem rawSet_cancel (raw : List (String × JsValue)) (f : String) (v old : JsValue)
    (hnd : (raw.map Prod.fst).Nodup)
    (hold : raw.lookup f = some old) :
    (raw.map (fun kv => if kv.1 = f then (kv.1, v) else kv)).map
      (fun kv => if kv.1 = f then (kv.1, old) else kv) = raw := by
  induction raw with
  | nil => rfl
  | cons kv rest ih =>
      obtain ⟨k, w⟩ := kv
      rw [List.map_cons] at hnd
      rcases List.nodup_cons.mp hnd with ⟨hk0, hnd'⟩
      by_cases hk : k = f
      · subst hk
        rw [List.lookup_cons, beq_self_eq_true] at hold
        simp only [Option.some.injEq] at hold
        subst hold
        rw [List.map_cons, if_pos rfl, List.map_cons, if_pos rfl]
        have hrest : ∀ (x : JsValue),
            rest.map (fun kv => if kv.1 = k then (kv.1, x) else kv) = rest := by
          intro x
          conv_rhs => rw [← List.map_id rest]
          apply List.map_congr_left
          intro a ha
          have hmem : a.1 ∈ rest.map Prod.fst := List.mem_map_of_mem Prod.fst ha
          have : a.1 ≠ k := by intro h; rw [h] at hmem; exact hk0 hmem
          rw [if_neg this]
          rfl
        rw [hrest v, hrest w]
      · have hbeq : (f == k) = false := beq_eq_false_iff_ne.mpr (fun h => hk h.symm)
        rw [List.lookup_cons, hbeq] at hold
        rw [List.map_cons, if_neg hk, List.map_cons, if_neg hk, ih hnd' hold]

/-- The undo claim exactly as stated: for EVERY model with an empty changelog,
one setter assignment of a declared field to a different value followed by
`undo(1)` restores the field, drops the update entry from the history and
makes `modified` false. -/
def C5Statement : Prop :=
  ∀ (m : MModel) (f : String) (v : JsValue),
    m.changelog = [] →
    (m.raw.lookup f).isSome = true →
    some v ≠ m.raw.lookup f →
    ((m.setField f v).undo 1).raw.lookup f = m.raw.lookup f ∧
    ({ action := .update, field := f
       old := some ((m.raw.lookup f).getD .undef), new := some v : Change } ∉
        ((m.setField f v).undo 1).changelog) ∧
    ((m.setField f v).undo 1).modified = .ok false

/-- C5 as stated is false: a freshly constructed model has `benchmark = null`,
and neither the setter nor `undo` ever writes `benchmark` (only
`setUnmodified`, i.e. `load`, does), so `modified` — the strict inequality
`checksum !== benchmark` between a number and `null` — is `true` even after a
perfect undo.  Witnessed by a fresh one-field model. -/
theorem undo_modified_not_false : ¬ C5Statement := by
  intro h
  have hraw : (initModel [⟨"x", .nul⟩]).raw = [("x", JsValue.nul)] := by rfl
  have h2 : ((initModel [⟨"x", .nul⟩]).raw.lookup "x").isSome = true := by
    rw [hraw]; rfl
  have h3 : some (JsValue.num 1) ≠ (initModel [⟨"x", .nul⟩]).raw.lookup "x" := by
    rw [hraw]; decide
  have hc := (h (initModel [⟨"x", .nul⟩]) "x" (.num 1) rfl h2 h3).2.2
  have he : ((((initModel [⟨"x", .nul⟩]).setField "x" (.num 1)).undo 1).modified) =
      .ok true := by rfl
  rw [he] at hc
  exact absurd ((Except.ok.injEq _ _).mp hc) (by decide)

/-- C5 (amended): on a model with an empty changelog, duplicate-free raw keys
and — unlike the claim — a benchmark equal to the current checksum (i.e. a
loaded or explicitly `setUnmodified` model, since fresh models keep
`benchmark = null` and stay `modified` forever), one setter assignment to a
declared field followed by `undo(1)` restores the raw data exactly, leaves a
changelog holding only the NEW update entry pushed by the undo replay (the
original entry with old/new in the other order is gone), and `modified` is
false again. -/
theorem undo_single_update_restores (m : MModel) (f : String) (v old : JsValue) (c : Nat)
    (h0 : m.changelog = [])
    (hold : m.raw.lookup f = some old)
    (hnd : (m.raw.map Prod.fst).Nodup)
    (hv : v ≠ old)
    (hb : m.benchmark = some c)
    (hc : checksumModel m = .ok c) :
    ((m.setField f v).undo 1).raw = m.raw ∧
    ((m.setField f v).undo 1).changelog =
      [{ action := .update, field := f, old := some v, new := some old }] ∧
    ({ action := .update, field := f, old := some old, new := some v : Change } ∉
      ((m.setField f v).undo 1).changelog) ∧
    ((m.setField f v).undo 1).modified = .ok false := by
  have hgetD : (m.raw.lookup f).getD .undef = old := by rw [hold]; rfl
  have hsome : (m.raw.lookup f).isSome := by rw [hold]; rfl
  have hm1 : m.setField f v =
      { m with
        raw := m.raw.map (fun kv => if kv.1 = f then (kv.1, v) else kv),
        changelog := [{ action := .update, field := f, old := some old, new := some v }] } := by
    unfold MModel.setField
    rw [h0, hgetD]
    rfl
  have hundo : (m.setField f v).undo 1 =
      MModel.setField { m with
          raw := m.raw.map (fun kv => if kv.1 = f then (kv.1, v) else kv),
          changelog := ([] : List Change) } f old := by
    rw [hm1]
    rfl
  have hlook1 : ((({ m with
      raw := m.raw.map (fun kv => if kv.1 = f then (kv.1, v) else kv),
      changelog := ([] : List Change) } : MModel)).raw.lookup f).getD .undef = v := by
    show ((m.raw.map (fun kv => if kv.1 = f then (kv.1, v) else kv)).lookup f).getD .undef = v
    rw [lookup_rawSet m.raw f v hsome]
    rfl
  have hm2 : MModel.setField { m with
        raw := m.raw.map (fun kv => if kv.1 = f then (kv.1, v) else kv),
        changelog := ([] : List Change) } f old =
      { m with
        raw := (m.raw.map (fun kv => if kv.1 = f then (kv.1, v) else kv)).map
          (fun kv => if kv.1 = f then (kv.1, old) else kv),
        changelog := [{ action := .update, field := f, old := some v, new := some old }] } := by
    unfold MModel.setField
    rw [hlook1]
    rfl
  have hX : (m.raw.map (fun kv => if kv.1 = f then (kv.1, v) else kv)).map
      (fun kv => if kv.1 = f then (kv.1, old) else kv) = m.raw :=
    rawSet_cancel m.raw f v old hnd hold
  refine ⟨?_, ?_, ?_, ?_⟩
  · rw [hundo, hm2]
    exact hX
  · rw [hundo, hm2]
  · rw [hundo, hm2]
    simp only [List.mem_singleton]
    intro heq
    have hcomp := congrArg Change.old heq
    simp only [Option.some.injEq] at hcomp
    exact hv hcomp.symm
  · rw [hundo, hm2]
    have hcm : checksumModel { m with
        raw := (m.raw.map (fun kv => if kv.1 = f then (kv.1, v) else kv)).map
          (fun kv => if kv.1 = f then (kv.1, old) else kv),
        changelog := [{ action := .update, field := f, old := some v, new := some old }] } =
        checksumModel m := by
      show (serializeRaw m.fields ((m.raw.map (fun kv => if kv.1 = f then (kv.1, v) else kv)).map
          (fun kv => if kv.1 = f then (kv.1, old) else kv))).map (fun d => checksum (jsonObj d)) =
        checksumModel m
      rw [hX]
      rfl
    show (checksumModel { m with
        raw := (m.raw.map (fun kv => if kv.1 = f then (kv.1, v) else kv)).map
          (fun kv => if kv.1 = f then (kv.1, old) else kv),
        changelog := [{ action := .update, field := f, old := some v, new := some old }] }).map
      (fun c0 => decide (some c0 ≠ m.benchmark)) = .ok false
    rw [hcm, hc, hb]
    simp [Except.map]

/-- A one-field model whose benchmark equals its current checksum (as left by
`load`/`setUnmodified`). -/
def c5w : MModel :=
  { fields := [⟨"x", .nul⟩, ⟨"id", .nul⟩]
    raw := [("x", JsValue.nul)]
    changelog := []
    benchmark := some (checksum (jsonObj [("x", JsValue.nul)]))
    oid := .nul }

/-- The amended undo theorem evaluated on `c5w`: assigning "x" to 1 and
undoing restores the raw data, swaps the logged entry and makes `modified`
false. -/
theorem undo_single_update_witness :
    ((c5w.setField "x" (.num 1)).undo 1).raw = c5w.raw ∧
    ((c5w.setField "x" (.num 1)).undo 1).changelog =
      [{ action := .update, field := "x", old := some (.num 1), new := some JsValue.nul }] ∧
    ({ action := .update, field := "x", old := some JsValue.nul, new := some (.num 1) : Change } ∉
      ((c5w.setField "x" (.num 1)).undo 1).changelog) ∧
    ((c5w.setField "x" (.num 1)).undo 1).modified = .ok false :=
  undo_single_update_restores c5w "x" (.num 1) JsValue.nul
    (checksum (jsonObj [("x", JsValue.nul)])) rfl rfl (by decide) (by decide) rfl rfl

/-- A slot write for a key that does not occur leaves an association list
unchanged. -/
theorem map_setSlot_id (l : List (String × JsValue)) (k : String) (v : JsValue)
    (h : k ∉ l.map Prod.fst) :
    l.map (fun rv => if rv.1 = k then (rv.1, v) else rv) = l := by
  conv_rhs => rw [← List.map_id l]
  apply List.map_congr_left
  intro a ha
  have hmem : a.1 ∈ l.map Prod.fst := List.mem_map_of_mem Prod.fst ha
  have hne : a.1 ≠ k := by intro he; rw [he] at hmem; exact h hmem
  rw [if_neg hne]
  rfl

/-- Lookup skips a prefix that does not hold the key. -/
theorem lookup_append_of_not_mem (l1 l2 : List (String × JsValue)) (k : String)
    (h : k ∉ l1.map Prod.fst) :
    (l1 ++ l2).lookup k = l2.lookup k := by
  induction l1 with
  | nil => rfl
  | cons a t ih =>
      obtain ⟨a1, a2⟩ := a
      rw [List.map_cons] at h
      have h1 : (k == a1) = false := by
        apply beq_eq_false_iff_ne.mpr
        intro he
        exact h (by rw [he]; exact List.mem_cons_self _ _)
      rw [List.cons_append, List.lookup_cons, h1]
      exact ih (fun hm => h (List.mem_cons_of_mem _ hm))

/-- When every raw key is a declared field passing the first-character test,
`serialize` succeeds and returns the raw list verbatim. -/
theorem serializeRaw_all_ok (fields : List FieldDef) (raw : List (String × JsValue))
    (h : ∀ kv ∈ raw, fields.any (fun fd => fd.name = kv.1) = true ∧ firstCharOk kv.1 = true) :
    serializeRaw fields raw = .ok raw := by
  induction raw with
  | nil => rfl
  | cons kv rest ih =>
      obtain ⟨k, v⟩ := kv
      obtain ⟨hany, hfc⟩ := h (k, v) (List.mem_cons_self _ _)
      rw [serializeRaw, if_pos hany, if_pos hfc,
        ih (fun a ha => h a (List.mem_cons_of_mem _ ha))]
      rfl

/-- No branch of the load loop touches the field definitions. -/
theorem foldl_loadStep_fields (d : List (String × JsValue)) :
    ∀ m : MModel, (d.foldl loadStep m).fields = m.fields := by
  induction d with
  | nil => intro m; rfl
  | cons kv rest ih =>
      intro m
      rw [List.foldl_cons, ih]
      unfold loadStep
      split
      · split
        · rfl
        · split
          · rfl
          · rfl
      · rfl

/-- No branch of the load loop touches benchmark or changelog. -/
theorem foldl_loadStep_bench (d : List (String × JsValue)) :
    ∀ m : MModel, (d.foldl loadStep m).benchmark = m.benchmark ∧
      (d.foldl loadStep m).changelog = m.changelog := by
  induction d with
  | nil => intro m; exact ⟨rfl, rfl⟩
  | cons kv rest ih =>
      intro m
      rw [List.foldl_cons]
      refine ⟨?_, ?_⟩
      · rw [(ih _).1]
        unfold loadStep
        split
        · split
          · rfl
          · split
            · rfl
            · rfl
        · rfl
      · rw [(ih _).2]
        unfold loadStep
        split
        · split
          · rfl
          · split
            · rfl
            · rfl
        · rfl

/-- The load loop's write branch: a declared key that owns a raw slot
overwrites that slot. -/
theorem loadStep_set (m : MModel) (k : String) (v : JsValue)
    (hany : m.fields.any (fun fd => fd.name = k) = true)
    (hlk : (m.raw.lookup k).isSome = true) :
    loadStep m (k, v) =
      { m with raw := m.raw.map (fun rv => if rv.1 = k then (rv.1, v) else rv) } := by
  unfold loadStep
  rw [if_pos hany, if_pos hlk]

/-- Core of the round trip: loading a data object whose keys are exactly the
keys of the raw suffix `rest` (no duplicates anywhere, all declared fields)
replaces the suffix with the loaded data and keeps the prefix `pre`. -/
theorem foldl_loadStep_raw (d : List (String × JsValue)) :
    ∀ (flds : List FieldDef) (pre rest : List (String × JsValue)) (cl : List Change)
      (bm : Option Nat) (ov : JsValue),
      rest.map Prod.fst = d.map Prod.fst →
      ((pre ++ rest).map Prod.fst).Nodup →
      (∀ kv ∈ d, flds.any (fun fd => fd.name = kv.1) = true) →
      (d.foldl loadStep ⟨flds, pre ++ rest, cl, bm, ov⟩).raw = pre ++ d := by
  induction d with
  | nil =>
      intro flds pre rest cl bm ov hkeys hnd hf
      have hrest : rest = [] := by
        cases rest with
        | nil => rfl
        | cons a t => simp at hkeys
      subst hrest
      rfl
  | cons hd d' ih =>
      intro flds pre rest cl bm ov hkeys hnd hf
      obtain ⟨k, v⟩ := hd
      cases rest with
      | nil => simp at hkeys
      | cons r rest' =>
          obtain ⟨rk, w⟩ := r
          rw [List.map_cons, List.map_cons] at hkeys
          injection hkeys with h1 h2
          subst h1
          rw [List.map_append, List.map_cons] at hnd
          have hsplit := List.nodup_append.mp hnd
          have hkpre : rk ∉ pre.map Prod.fst :=
            fun hm => hsplit.2.2 hm (List.mem_cons_self _ _)
          have hkrest : rk ∉ rest'.map Prod.fst := (List.nodup_cons.mp hsplit.2.1).1
          have hany : flds.any (fun fd => fd.name = rk) = true :=
            hf (rk, v) (List.mem_cons_self _ _)
          have hlk : ((pre ++ (rk, w) :: rest').lookup rk).isSome = true := by
            rw [lookup_append_of_not_mem _ _ _ hkpre, List.lookup_cons_self]
            rfl
          rw [List.foldl_cons,
            loadStep_set ⟨flds, pre ++ (rk, w) :: rest', cl, bm, ov⟩ rk v hany hlk]
          have hraw : (pre ++ (rk, w) :: rest').map
              (fun rv => if rv.1 = rk then (rv.1, v) else rv) =
              (pre ++ [(rk, v)]) ++ rest' := by
            rw [List.map_append, List.map_cons, if_pos rfl,
              map_setSlot_id pre rk v hkpre, map_setSlot_id rest' rk v hkrest]
            simp
          rw [show ({ (⟨flds, pre ++ (rk, w) :: rest', cl, bm, ov⟩ : MModel) with
              raw := (pre ++ (rk, w) :: rest').map
                (fun rv => if rv.1 = rk then (rv.1, v) else rv) } : MModel) =
              ⟨flds, (pre ++ [(rk, v)]) ++ rest', cl, bm, ov⟩ from by rw [hraw]]
          have hnd2 : (((pre ++ [(rk, v)]) ++ rest').map Prod.fst).Nodup := by
            have : ((pre ++ [(rk, v)]) ++ rest').map Prod.fst =
                pre.map Prod.fst ++ rk :: rest'.map Prod.fst := by
              simp
            rw [this]
            exact hnd
          have := ih flds (pre ++ [(rk, v)]) rest' cl bm ov h2 hnd2
            (fun kv hkv => hf kv (List.mem_cons_of_mem _ hkv))
          rw [this]
          simp

/-- The keys of a fresh model's raw object are the declared non-"id" field
names in declaration order. -/
theorem initRaw_keys (fs : List FieldDef) :
    (initRaw fs).map Prod.fst =
      (fs.filter (fun fd => decide (strToLower fd.name ≠ "id"))).map FieldDef.name := by
  unfold initRaw
  rw [List.map_map]
  rfl

/-- Per-record round trip: building a model from the schema and loading a data
object whose keys are exactly the fresh raw keys yields a model whose raw data
IS the loaded object and whose `data` getter returns it verbatim (all field
names pass the serializer's first-character test and are duplicate-free). -/
theorem model_roundtrip (schema : List FieldDef) (d : List (String × JsValue))
    (hok : ∀ fd ∈ ensureId schema, firstCharOk fd.name = true)
    (hnd : ((ensureId schema).map FieldDef.name).Nodup)
    (hkeys : d.map Prod.fst = (initRaw (ensureId schema)).map Prod.fst) :
    ∃ m', modelNew schema d = .ok m' ∧ m'.fields = ensureId schema ∧ m'.raw = d ∧
      modelData m' = .ok d := by
  have hkey_fact : ∀ k, k ∈ d.map Prod.fst →
      (ensureId schema).any (fun fd => fd.name = k) = true ∧ firstCharOk k = true := by
    intro k hk
    rw [hkeys, initRaw_keys] at hk
    obtain ⟨fd, hfd, hname⟩ := List.mem_map.mp hk
    have hfd' : fd ∈ ensureId schema := List.mem_of_mem_filter hfd
    constructor
    · exact List.any_eq_true.mpr ⟨fd, hfd', by simp [hname]⟩
    · rw [← hname]
      exact hok fd hfd'
  have hndraw : ((initRaw (ensureId schema)).map Prod.fst).Nodup := by
    rw [initRaw_keys]
    exact hnd.sublist (List.Sublist.map FieldDef.name (List.filter_sublist (ensureId schema)))
  have hfold : (d.foldl loadStep (initModel schema)).raw = d :=
    foldl_loadStep_raw d (ensureId schema) [] (initRaw (ensureId schema)) [] none .nul
      hkeys.symm (by rw [List.nil_append]; exact hndraw)
      (fun kv hkv => (hkey_fact kv.1 (List.mem_map_of_mem Prod.fst hkv)).1)
  have hflds : (d.foldl loadStep (initModel schema)).fields = ensureId schema :=
    foldl_loadStep_fields d (initModel schema)
  have hser : serializeRaw (ensureId schema) d = .ok d :=
    serializeRaw_all_ok (ensureId schema) d
      (fun kv hkv => hkey_fact kv.1 (List.mem_map_of_mem Prod.fst hkv))
  have hcm : checksumModel (d.foldl loadStep (initModel schema)) =
      .ok (checksum (jsonObj d)) := by
    show (serializeRaw (d.foldl loadStep (initModel schema)).fields
        (d.foldl loadStep (initModel schema)).raw).map (fun d0 => checksum (jsonObj d0)) =
      .ok (checksum (jsonObj d))
    rw [hflds, hfold, hser]
    rfl
  refine ⟨{ d.foldl loadStep (initModel schema) with
      benchmark := some (checksum (jsonObj d)), changelog := [] }, ?_, ?_, ?_, ?_⟩
  · show (initModel schema).load d = _
    unfold MModel.load
    simp only [hcm]
    rfl
  · exact hflds
  · exact hfold
  · show serializeRaw (d.foldl loadStep (initModel schema)).fields
        (d.foldl loadStep (initModel schema)).raw = .ok d
    rw [hflds, hfold]
    exact hser

/-- Bind on a successful Except computation. -/
theorem exBind_ok {α β : Type} (a : α) (f : α → Except String β) :
    (Except.ok a >>= f) = f a := rfl

/-- If every stored record serializes, the duplicate filter's checksum pass
succeeds. -/
theorem listChecksums_ok (ms : List MModel)
    (h : ∀ m ∈ ms, ∃ dm, modelData m = .ok dm) :
    ∃ cs, listChecksums ms = .ok cs := by
  induction ms with
  | nil => exact ⟨[], rfl⟩
  | cons m t ih =>
      obtain ⟨dm, hdm⟩ := h m (List.mem_cons_self _ _)
      obtain ⟨cs, hcs⟩ := ih (fun a ha => h a (List.mem_cons_of_mem _ ha))
      have hc0 : checksumModel m = .ok (checksum (jsonObj dm)) := by
        show (modelData m).map (fun d => checksum (jsonObj d)) = _
        rw [hdm]
        rfl
      refine ⟨checksum (jsonObj dm) :: cs, ?_⟩
      rw [listChecksums, hc0, exBind_ok, hcs, exBind_ok]

/-- `isDuplicate` returns some boolean (never throws) when the new record and
every stored record serialize. -/
theorem isDuplicate_ok (s : ModelStore) (record : MModel)
    (hrec : ∃ dr, modelData record = .ok dr)
    (h : ∀ m ∈ s._data, ∃ dm, modelData m = .ok dm) :
    ∃ b, s.isDuplicate record = .ok b := by
  unfold ModelStore.isDuplicate
  cases hc : s._data.contains record with
  | true => rw [if_pos rfl]; exact ⟨false, rfl⟩
  | false =>
      rw [if_neg Bool.false_ne_true]
      obtain ⟨dr, hdr⟩ := hrec
      obtain ⟨cs, hcs⟩ := listChecksums_ok s._data h
      have hc0 : checksumModel record = .ok (checksum (jsonObj dr)) := by
        show (modelData record).map (fun d => checksum (jsonObj d)) = _
        rw [hdr]
        rfl
      rw [hc0, exBind_ok, hcs, exBind_ok]
      exact ⟨_, rfl⟩

/-- `add` during a bulk load on a duplicate-tolerant store: the freshly built
model is appended to `_data` and nothing else changes (`_created` is guarded
by `_loading`). -/
theorem modelStore_add_loading (s : ModelStore) (d : List (String × JsValue)) (record : MModel)
    (hmn : modelNew s.schema d = .ok record)
    (hallow : s.allowDuplicates = true)
    (hload : s._loading = true)
    (hdup : ∃ b, s.isDuplicate record = .ok b) :
    s.add d = .ok ({ s with _data := s._data ++ [record] }, some record) := by
  obtain ⟨b, hb⟩ := hdup
  unfold ModelStore.add
  rw [hmn, exBind_ok, hb, exBind_ok,
    if_neg (fun hcontra => hcontra.2 (by rw [hallow]))]
  simp only [hload, not_true_eq_false, false_and, if_false]

/-- The bulk-load loop appends one freshly built model per data object, and
those models serialize back to exactly the loaded objects. -/
theorem addAllLoading_roundtrip (schema : List FieldDef)
    (hok : ∀ fd ∈ ensureId schema, firstCharOk fd.name = true)
    (hnd : ((ensureId schema).map FieldDef.name).Nodup) :
    ∀ (ds : List (List (String × JsValue))) (s : ModelStore),
      s.schema = schema →
      s.allowDuplicates = true →
      s._loading = true →
      (∀ m ∈ s._data, ∃ dm, modelData m = .ok dm) →
      (∀ d0 ∈ ds, d0.map Prod.fst = (initRaw (ensureId schema)).map Prod.fst) →
      ∃ ms', ModelStore.addAllLoading s ds = .ok { s with _data := s._data ++ ms' } ∧
        modelDataList ms' = .ok ds := by
  intro ds
  induction ds with
  | nil =>
      intro s hschema hallow hload hser hkeys
      refine ⟨[], ?_, rfl⟩
      show Except.ok s = _
      rw [List.append_nil]
  | cons d0 ds' ih =>
      intro s hschema hallow hload hser hkeys
      obtain ⟨m', hmn, hflds, hraw, hdata⟩ :=
        model_roundtrip schema d0 hok hnd (hkeys d0 (List.mem_cons_self _ _))
      have hmn' : modelNew s.schema d0 = .ok m' := by rw [hschema]; exact hmn
      have hadd := modelStore_add_loading s d0 m' hmn' hallow hload
        (isDuplicate_ok s m' ⟨d0, hdata⟩ hser)
      have hser' : ∀ m ∈ s._data ++ [m'], ∃ dm, modelData m = .ok dm := by
        intro m hm
        rcases List.mem_append.mp hm with hm1 | hm2
        · exact hser m hm1
        · rw [List.mem_singleton.mp hm2]
          exact ⟨d0, hdata⟩
      obtain ⟨ms'', hrec, hlist⟩ := ih { s with _data := s._data ++ [m'] }
        hschema hallow hload hser' (fun a ha => hkeys a (List.mem_cons_of_mem _ ha))
      refine ⟨m' :: ms'', ?_, ?_⟩
      · rw [ModelStore.addAllLoading, hadd, exBind_ok]
        show ModelStore.addAllLoading { s with _data := s._data ++ [m'] } ds' =
          Except.ok { s with _data := s._data ++ m' :: ms'' }
        rw [hrec]
        rw [show (s._data ++ [m']) ++ ms'' = s._data ++ m' :: ms'' by simp]
      · rw [modelDataList, hdata, exBind_ok, hlist, exBind_ok]

/-- A model conforming to the schema (declared fields, fresh-raw key set)
serializes to its raw list verbatim when every field name passes the
serializer's first-character test. -/
theorem conformant_serialize (schema : List FieldDef) (m : MModel)
    (hok : ∀ fd ∈ ensureId schema, firstCharOk fd.name = true)
    (hf : m.fields = ensureId schema)
    (hk : m.raw.map Prod.fst = (initRaw (ensureId schema)).map Prod.fst) :
    modelData m = .ok m.raw := by
  show serializeRaw m.fields m.raw = .ok m.raw
  rw [hf]
  apply serializeRaw_all_ok
  intro kv hkv
  have hkm : kv.1 ∈ (initRaw (ensureId schema)).map Prod.fst := by
    rw [← hk]
    exact List.mem_map_of_mem Prod.fst hkv
  rw [initRaw_keys] at hkm
  obtain ⟨fd, hfd, hname⟩ := List.mem_map.mp hkm
  have hfd' : fd ∈ ensureId schema := List.mem_of_mem_filter hfd
  exact ⟨List.any_eq_true.mpr ⟨fd, hfd', by simp [hname]⟩,
    by rw [← hname]; exact hok fd hfd'⟩

/-- When every record serializes to its raw list, the store's `data` getter
returns exactly the raw lists in order. -/
theorem modelDataList_eq (ms : List MModel)
    (hser : ∀ m ∈ ms, modelData m = .ok m.raw) :
    modelDataList ms = .ok (ms.map MModel.raw) := by
  induction ms with
  | nil => rfl
  | cons m t ih =>
      rw [modelDataList, hser m (List.mem_cons_self _ _), exBind_ok,
        ih (fun a ha => hser a (List.mem_cons_of_mem _ ha)), exBind_ok]
      rfl

/-- C4: for a Store S of model records whose schema field names are
duplicate-free and pass the serializer's first-character test, and whose
records conform to the schema (declared fields, fresh raw key set), loading
S.data into a fresh empty Store of the same schema succeeds and the new
store's data getter returns exactly S.data, element by element and in
order. -/
theorem store_load_roundtrip (schema : List FieldDef) (S : ModelStore)
    (ds : List (List (String × JsValue)))
    (hok : ∀ fd ∈ ensureId schema, firstCharOk fd.name = true)
    (hnd : ((ensureId schema).map FieldDef.name).Nodup)
    (hconf : ∀ m ∈ S._data, m.fields = ensureId schema ∧
      m.raw.map Prod.fst = (initRaw (ensureId schema)).map Prod.fst)
    (hdata : S.dataOf = .ok ds) :
    ∃ T, (freshModelStore schema).load ds = .ok T ∧ T.dataOf = .ok ds := by
  have hser : ∀ m ∈ S._data, modelData m = .ok m.raw :=
    fun m hm => conformant_serialize schema m hok (hconf m hm).1 (hconf m hm).2
  have hds : ds = S._data.map MModel.raw :=
    (Except.ok.injEq _ _).mp (hdata.symm.trans (modelDataList_eq S._data hser))
  have hkeys : ∀ d0 ∈ ds, d0.map Prod.fst = (initRaw (ensureId schema)).map Prod.fst := by
    intro d0 hd0
    rw [hds] at hd0
    obtain ⟨m, hm, hmr⟩ := List.mem_map.mp hd0
    rw [← hmr]
    exact (hconf m hm).2
  obtain ⟨ms', hall, hlist⟩ := addAllLoading_roundtrip schema hok hnd ds
    { freshModelStore schema with _loading := true } rfl rfl rfl
    (fun m hm => absurd hm (List.not_mem_nil m)) hkeys
  refine ⟨⟨schema, ms', [], [], true, true, false⟩, ?_, ?_⟩
  · show (freshModelStore schema).bulk ds = _
    unfold ModelStore.bulk
    rw [hall, exBind_ok]
    rfl
  · exact hlist

/-- The round-trip theorem evaluated on a one-field schema holding a single
record with "a" set to "v". -/
theorem store_load_roundtrip_witness :
    ∃ T, (freshModelStore [⟨"a", JsValue.nul⟩]).load [[("a", JsValue.str "v")]] = .ok T ∧
      T.dataOf = .ok [[("a", JsValue.str "v")]] :=
  store_load_roundtrip [⟨"a", JsValue.nul⟩]
    ⟨[⟨"a", JsValue.nul⟩],
      [⟨[⟨"a", JsValue.nul⟩, ⟨"id", JsValue.nul⟩], [("a", JsValue.str "v")], [], none,
        JsValue.nul⟩],
      [], [], true, true, false⟩
    [[("a", JsValue.str "v")]] (by decide) (by decide) (by decide) rfl
